import Mathlib

/-!
Verification development for the `tailwind` Chroma formatter.

The Go source renders tokenized source code as HTML styled with Tailwind
utility classes, diffing a light theme against a dark theme per token
category, memoizing the per-category class mapping in a bounded LRU cache,
and emitting lines with optional numbering and highlight ranges.

Shallow embedding conventions:
* Go machine integers are modelled by `Nat` (all quantities involved are
  non-negative: line numbers, tab widths, cache sizes).
* `chroma.Colour` is an `int32` RGB value whose canonical textual form is a
  lowercase `#rrggbb` hex string; it is modelled as `Option Nat` (none =
  unset) with `colourString` producing the canonical representation.
* Theme identity (Go pointer equality on `*chroma.Style`) is modelled by a
  `Nat` identifier in the cache model; theme content is a resolved lookup
  function `TokenType → StyleEntry`.
* Fallible writes to the output sink are modelled by a function
  `Nat → Option String` giving the error (if any) reported by the sink for
  the n-th write call.
-/

/-- Tri-state flag of a chroma style entry: unset (`Pass`), `Yes`, `No`. -/
inductive Trilean where
  | pass
  | yes
  | no
deriving DecidableEq, Repr

/-- Token categories used by the formatter: the structural pseudo-categories
plus a representative set of standard token categories.  This models the key
set of `chroma.StandardTypes` iterated by `Formatter.classes`. -/
inductive TokenType where
  | Background
  | PreWrapper
  | Line
  | LineNumbers
  | LineNumbersTable
  | LineTable
  | LineTableTD
  | LineLink
  | LineHighlight
  | CodeLine
  | Keyword
  | KeywordConstant
  | Name
  | NameFunction
  | LiteralString
  | Comment
  | CommentSingle
  | Text
  | Error
  | Other
deriving DecidableEq, Repr

/-- A resolved chroma style entry: optional foreground colour, optional
background colour, and three tri-state flags.  Colours are modelled by their
24-bit RGB value (`none` = unset). -/
structure StyleEntry where
  colour : Option Nat
  background : Option Nat
  bold : Trilean
  italic : Trilean
  underline : Trilean
deriving DecidableEq, Repr

/-- Modelled from the spec: field-wise subtraction of the background entry,
implemented by the external dependency `chroma.StyleEntry.Sub` (not part of
this repository).  Each of the five fields of the receiver that exactly
equals the argument's corresponding field is reset to unset; fields that
differ are kept.  The spec: "This subtraction is field-wise, not holistic:
each of \{foreground color, background color, bold, italic, underline\} is
compared independently." -/
def StyleEntry.sub (s e : StyleEntry) : StyleEntry where
  colour := if e.colour = s.colour then none else s.colour
  background := if e.background = s.background then none else s.background
  bold := if e.bold = s.bold then Trilean.pass else s.bold
  italic := if e.italic = s.italic then Trilean.pass else s.italic
  underline := if e.underline = s.underline then Trilean.pass else s.underline

/-- A theme (`chroma.Style`), exposed through its resolved per-category
lookup.  The hierarchical-fallback resolution of `chroma.Style.Get` is
external to this repository; `get` models its result. -/
structure Style where
  get : TokenType → StyleEntry

/-- One token of the input stream: a category and its literal text. -/
structure Token where
  tokenType : TokenType
  text : String
deriving DecidableEq, Repr

/-- Hex digit character for a value below 16 (lowercase, as produced by
Go's `%x`). -/
def hexDigit (n : Nat) : Char :=
  if n < 10 then Char.ofNat (48 + n) else Char.ofNat (87 + n)

/-- Six-digit lowercase hex rendering of a 24-bit RGB value, as produced by
Go's `%06x`. -/
def hex6 (c : Nat) : String :=
  String.mk [hexDigit (c / 1048576 % 16), hexDigit (c / 65536 % 16),
    hexDigit (c / 4096 % 16), hexDigit (c / 256 % 16),
    hexDigit (c / 16 % 16), hexDigit (c % 16)]

/-- Canonical textual form of a set colour: `#rrggbb`
(`chroma.Colour.String`). -/
def colourString (c : Nat) : String :=
  "#" ++ hex6 c

/-- `entryValues` holds the raw class text derived from one style entry
(`text` and `bg` are empty strings when the corresponding colour is unset). -/
structure entryValues where
  text : String
  bg : String
  bold : Bool
  italic : Bool
  underline : Bool
deriving DecidableEq, Repr

/-- `entryValuesFrom` (source): derives the raw class values of a style
entry; only a `Yes` flag counts as set. -/
def entryValuesFrom (entry : StyleEntry) : entryValues where
  text := match entry.colour with
    | some c => "text-[" ++ colourString c ++ "]"
    | none => ""
  bg := match entry.background with
    | some c => "bg-[" ++ colourString c ++ "]"
    | none => ""
  bold := entry.bold = Trilean.yes
  italic := entry.italic = Trilean.yes
  underline := entry.underline = Trilean.yes

/-- `prefixClass` (source): prepend the configured class text when
non-empty. -/
def prefixClass (p cls : String) : String :=
  if p = "" then cls else p ++ cls

/-- `joinClasses` (source): join two class strings with a space, dropping
empty sides. -/
def joinClasses (a b : String) : String :=
  if a = "" then b else if b = "" then a else a ++ " " ++ b

/-- The light-class list of `entryValues.classes` (source): one class per
set field, in source order text, bg, bold, italic, underline.  The Go
append chain is modelled as concatenation of conditional singletons. -/
def entryValues.classes (e : entryValues) (p : String) : List String :=
  (if e.text ≠ "" then [prefixClass p e.text] else []) ++
  (if e.bg ≠ "" then [prefixClass p e.bg] else []) ++
  (if e.bold then [prefixClass p "font-bold"] else []) ++
  (if e.italic then [prefixClass p "italic"] else []) ++
  (if e.underline then [prefixClass p "underline"] else [])

/-- The pluggable pre-wrapper: `Start(code, classAttr)` and `End(code)`
of the source `PreWrapper` interface (`End` is renamed `stop`, `end` being
reserved in Lean). -/
structure PreWrapper where
  start : Bool → String → String
  stop : Bool → String

/-- `defaultPreWrapper` (source). -/
def defaultPreWrapper : PreWrapper where
  start := fun code classAttr =>
    if code then "<pre" ++ classAttr ++ "><code>" else "<pre" ++ classAttr ++ ">"
  stop := fun code => if code then "</code></pre>" else "</pre>"

/-- `nopPreWrapper` (source). -/
def nopPreWrapper : PreWrapper where
  start := fun _ _ => ""
  stop := fun _ => ""

/-- An inclusive 1-based highlight line range `[start, end]`
(`[2]int` in the source). -/
abbrev HRange := Nat × Nat

/-- The formatter configuration (source `Formatter` struct).  The Go field
`prefix` is named `pfx` and `lineNumbersIDPrefix` is named `idPfx`.
The class cache is kept outside this structure (see `cacheGet`), since its
keys are theme identities. -/
structure Formatter where
  standalone : Bool := false
  pfx : String := ""
  darkStyle : Option Style := none
  preWrapper : PreWrapper := defaultPreWrapper
  inlineCode : Bool := false
  preventSurroundingPre : Bool := false
  tabWidth : Nat := 0
  wrapLongLines : Bool := false
  lineNumbers : Bool := false
  lineNumbersInTable : Bool := false
  linkableLineNumbers : Bool := false
  idPfx : String := ""
  highlightRanges : List HRange := []
  baseLineNumber : Nat := 1

/-- `darkClass` (source): the `dark:` marker precedes the configured class
text. -/
def Formatter.darkClass (f : Formatter) (cls : String) : String :=
  "dark:" ++ prefixClass f.pfx cls

/-- The foreground block of `darkVariantClasses` (source): the dark value
when set, else a reset class when the light value is set, else nothing. -/
def darkTextBlock (f : Formatter) (light dark : entryValues) : List String :=
  if dark.text ≠ "" then [f.darkClass dark.text]
  else if light.text ≠ "" then [f.darkClass "text-[inherit]"]
  else []

/-- The background block of `darkVariantClasses` (source). -/
def darkBgBlock (f : Formatter) (light dark : entryValues) : List String :=
  if dark.bg ≠ "" then [f.darkClass dark.bg]
  else if light.bg ≠ "" then [f.darkClass "bg-transparent"]
  else []

/-- The bold block of `darkVariantClasses` (source). -/
def darkBoldBlock (f : Formatter) (light dark : entryValues) : List String :=
  if dark.bold then [f.darkClass "font-bold"]
  else if light.bold then [f.darkClass "font-normal"]
  else []

/-- The italic block of `darkVariantClasses` (source). -/
def darkItalicBlock (f : Formatter) (light dark : entryValues) : List String :=
  if dark.italic then [f.darkClass "italic"]
  else if light.italic then [f.darkClass "not-italic"]
  else []

/-- The underline block of `darkVariantClasses` (source). -/
def darkUnderlineBlock (f : Formatter) (light dark : entryValues) : List String :=
  if dark.underline then [f.darkClass "underline"]
  else if light.underline then [f.darkClass "no-underline"]
  else []

/-- `darkVariantClasses` (source): per-field dark classes, in source order;
the Go append chain is the concatenation of the five field blocks. -/
def Formatter.darkVariantClasses (f : Formatter) (light dark : entryValues) :
    List String :=
  darkTextBlock f light dark ++ darkBgBlock f light dark ++
  darkBoldBlock f light dark ++ darkItalicBlock f light dark ++
  darkUnderlineBlock f light dark

/-- `prefixedClasses` (source): prefix every non-empty class. -/
def Formatter.prefixedClasses (f : Formatter) (classes : List String) :
    List String :=
  (classes.filter (fun c => c ≠ "")).map (prefixClass f.pfx)

/-- `tabWidthClass` (source): a `[tab-size:n]` class when the configured
tab width is neither 0 (unset) nor the default 8. -/
def Formatter.tabWidthClass (f : Formatter) : String :=
  if f.tabWidth ≠ 0 ∧ f.tabWidth ≠ 8 then
    "[tab-size:" ++ toString f.tabWidth ++ "]"
  else ""

/-- `baseClasses` (source): fixed structural classes of the structural
pseudo-categories. -/
def Formatter.baseClasses (f : Formatter) (tt : TokenType) : List String :=
  match tt with
  | TokenType.PreWrapper =>
    (if f.highlightRanges ≠ [] then ["grid"] else []) ++
    (if f.wrapLongLines then ["whitespace-pre-wrap", "break-words"] else [])
  | TokenType.Line => ["flex"]
  | TokenType.LineNumbers => ["whitespace-pre", "select-none", "mr-[0.4em]", "px-[0.4em]"]
  | TokenType.LineNumbersTable => ["whitespace-pre", "select-none", "mr-[0.4em]", "px-[0.4em]"]
  | TokenType.LineTable => ["border-separate", "border-spacing-0", "p-0", "m-0", "border-0"]
  | TokenType.LineTableTD => ["align-top", "p-0", "m-0", "border-0"]
  | TokenType.LineLink => ["outline-none", "no-underline", "text-[inherit]"]
  | _ => []

/-- The light entry used by the `classes` loop body (source): the resolved
entry, subtracted against the resolved Background entry unless the category
is Background itself. -/
def subLightEntry (light : Style) (tt : TokenType) : StyleEntry :=
  if tt ≠ TokenType.Background then
    (light.get tt).sub (light.get TokenType.Background)
  else light.get tt

/-- The dark entry used by the `classes` loop body (source). -/
def subDarkEntry (dark : Style) (tt : TokenType) : StyleEntry :=
  if tt ≠ TokenType.Background then
    (dark.get tt).sub (dark.get TokenType.Background)
  else dark.get tt

/-- The `lightValues` of the `classes` loop body (source). -/
def lightValuesAt (light : Style) (tt : TokenType) : entryValues :=
  entryValuesFrom (subLightEntry light tt)

/-- The `darkValues` of the `classes` loop body (source). -/
def darkValuesAt (dark : Style) (tt : TokenType) : entryValues :=
  entryValuesFrom (subDarkEntry dark tt)

/-- The `parts` list built by the `classes` loop body (source): structural
classes, then light classes, then dark-variant classes. -/
def classParts (f : Formatter) (light dark : Style) (tt : TokenType) :
    List String :=
  f.prefixedClasses (f.baseClasses tt) ++
  (lightValuesAt light tt).classes f.pfx ++
  f.darkVariantClasses (lightValuesAt light tt) (darkValuesAt dark tt)

/-- The per-category class string of the `classes` loop (source):
`strings.Join(parts, " ")`. -/
def classesFor (f : Formatter) (light dark : Style) (tt : TokenType) : String :=
  String.intercalate " " (classParts f light dark tt)

/-- `Formatter.classes` (source): the full class mapping.  A nil dark style
defaults to the light style; after the per-category loop the tab-width
class is appended to the Background entry and the (updated) Background
string is folded into the PreWrapper entry. -/
def Formatter.classes (f : Formatter) (light : Style) (darkOpt : Option Style) :
    TokenType → String :=
  let dark := darkOpt.getD light
  let base := fun tt => classesFor f light dark tt
  let m1 := fun tt =>
    if tt = TokenType.Background then
      if f.tabWidthClass = "" then base tt
      else joinClasses (base tt) (prefixClass f.pfx f.tabWidthClass)
    else base tt
  fun tt =>
    if tt = TokenType.PreWrapper then
      joinClasses (m1 TokenType.PreWrapper) (m1 TokenType.Background)
    else m1 tt

/-- `strings.TrimSpace`: drop leading and trailing whitespace (structural
implementation over the character list). -/
def trimString (s : String) : String :=
  String.mk
    (((s.data.dropWhile Char.isWhitespace).reverse.dropWhile
      Char.isWhitespace).reverse)

/-- Split a string at every space character (structural implementation). -/
def splitSpaceAux : List Char → List Char → List String
  | acc, [] => [String.mk acc.reverse]
  | acc, c :: rest =>
    if c = ' ' then String.mk acc.reverse :: splitSpaceAux [] rest
    else splitSpaceAux (c :: acc) rest

/-- Split a string at spaces. -/
def splitSpace (s : String) : List String :=
  splitSpaceAux [] s.data

/-- `classAttr` (source): the ` class="..."` attribute text for a category,
from the cached mapping plus optional extra classes (each trimmed, split on
spaces, prefixed).  `strings.Fields` is modelled as splitting on spaces and
dropping empty fields. -/
def Formatter.classAttr (f : Formatter) (classes : TokenType → String)
    (tt : TokenType) (extraClasses : List String) : String :=
  let parts :=
    (if trimString (classes tt) ≠ "" then [trimString (classes tt)] else []) ++
    (extraClasses.filterMap (fun extra =>
      let extra := trimString extra
      if extra = "" then none
      else
        let prefixed := f.prefixedClasses
          ((splitSpace extra).filter (fun s => s ≠ ""))
        if prefixed ≠ [] then some (String.intercalate " " prefixed)
        else none))
  if parts = [] then ""
  else " class=\"" ++ String.intercalate " " parts ++ "\""

/-- Modelled from the spec: the escaping applied to literal token text,
implemented by the external Go standard library `html.EscapeString` (not
part of this repository): ampersand, single and double quote, and angle
brackets become entities; every other character is kept. -/
def escapeChar (c : Char) : String :=
  if c = '&' then "&amp;"
  else if c = '\'' then "&#39;"
  else if c = '<' then "&lt;"
  else if c = '>' then "&gt;"
  else if c = '"' then "&#34;"
  else String.mk [c]

/-- HTML-escape a whole string (external `html.EscapeString`, see
`escapeChar`). -/
def escapeString (s : String) : String :=
  String.join (s.data.map escapeChar)

/-- The token-emission step of the `writeHTML` token loop (source): the
escaped literal text, wrapped in a styled span exactly when the category's
class attribute is non-empty. -/
def tokenHTML (f : Formatter) (classes : TokenType → String) (tok : Token) :
    String :=
  let h := escapeString tok.text
  let attr := f.classAttr classes tok.tokenType []
  if attr ≠ "" then "<span" ++ attr ++ ">" ++ h ++ "</span>" else h

/-- Split a token's text into fragments after each newline
(`strings.SplitAfterN` driven loop of the external
`chroma.SplitTokensIntoLines`); the final fragment (possibly empty) carries
no newline. -/
def fragmentsAux : List Char → List Char → List String
  | acc, [] => [String.mk acc.reverse]
  | acc, c :: rest =>
    if c = '\n' then String.mk (acc.reverse ++ ['\n']) :: fragmentsAux [] rest
    else fragmentsAux (c :: acc) rest

/-- All newline-terminated fragments of a string, final remainder last. -/
def fragments (s : String) : List String :=
  fragmentsAux [] s.data

/-- Distribute the fragments of one token over lines: every fragment but the
last ends the current line. -/
def pushFrags (cat : TokenType) :
    List String → List (List Token) × List Token → List (List Token) × List Token
  | [], st => st
  | [last], (out, line) => (out, line ++ [⟨cat, last⟩])
  | frag :: rest, (out, line) =>
    pushFrags cat rest (out ++ [line ++ [⟨cat, frag⟩]], [])

/-- Modelled from the spec: the external `chroma.SplitTokensIntoLines`
(not part of this repository).  "a line boundary occurs at each newline
found inside token text; a token containing embedded newlines is split
across line boundaries, each fragment retaining the original category". -/
def splitTokensIntoLines (tokens : List Token) : List (List Token) :=
  let (out, line) := tokens.foldl
    (fun st tok => pushFrags tok.tokenType (fragments tok.text) st) ([], [])
  if line ≠ [] then out ++ [line] else out

/-- Left-pad a string with spaces to the given width (Go `%*d` on the line
number). -/
def padLeft (s : String) (w : Nat) : String :=
  String.mk (List.replicate (w - s.length) ' ') ++ s

/-- `lineID` (source). -/
def Formatter.lineID (f : Formatter) (line : Nat) : String :=
  f.idPfx ++ toString line

/-- `lineIDAttribute` (source). -/
def Formatter.lineIDAttribute (f : Formatter) (line : Nat) : String :=
  if ¬f.linkableLineNumbers then ""
  else " id=\"" ++ f.lineID line ++ "\""

/-- `lineTitleWithLinkIfNeeded` (source). -/
def Formatter.lineTitleWithLinkIfNeeded (f : Formatter)
    (classes : TokenType → String) (lineDigits line : Nat) : String :=
  let title := padLeft (toString line) lineDigits
  if ¬f.linkableLineNumbers then title
  else "<a" ++ f.classAttr classes TokenType.LineLink [] ++ " href=\"#" ++
    f.lineID line ++ "\">" ++ title ++ "</a>"

/-- The skip-then-test loop of `shouldHighlight` (source), acting on the
suffix of the sorted range list from the current cursor: advance past every
range whose end lies below the current line (recording that the cursor
moved), then test containment against the first remaining range. -/
def shAux (line : Nat) : List HRange → Bool → Bool × Bool
  | [], skipped => (false, skipped)
  | r :: rest, skipped =>
    if r.2 < line then shAux line rest true
    else (decide (r.1 ≤ line) && decide (line ≤ r.2), skipped)

/-- `shouldHighlight` (source): given the caller's cursor `highlightIndex`
and the current line number, report whether the line is highlighted and
whether the cursor moved. -/
def Formatter.shouldHighlight (f : Formatter) (highlightIndex line : Nat) :
    Bool × Bool :=
  shAux line (f.highlightRanges.drop highlightIndex) false

/-- The per-line highlight decisions of the `writeHTML` line loop (source):
lines are visited in increasing order, and the caller's cursor advances by
one whenever `shouldHighlight` reported movement. -/
def hlGo (rs : List HRange) : Nat → Nat → Nat → List Bool
  | 0, _, _ => []
  | n + 1, line, hi =>
    let hn := shAux line (rs.drop hi) false
    hn.1 :: hlGo rs n (line + 1) (hi + if hn.2 then 1 else 0)

/-- The highlight flags of the first `n` rendered lines of a formatter. -/
def Formatter.highlightFlags (f : Formatter) (n : Nat) : List Bool :=
  hlGo f.highlightRanges n f.baseLineNumber 0

/-- The write pieces emitted for one line of the line-number table column
of `writeHTML` (source). -/
def tableLinePieces (f : Formatter) (classes : TokenType → String)
    (lineDigits line : Nat) (highlight : Bool) : List String :=
  (if highlight then
    ["<span" ++ f.classAttr classes TokenType.LineHighlight [] ++ ">"]
  else []) ++
  ["<span" ++ f.classAttr classes TokenType.LineNumbersTable [] ++
    f.lineIDAttribute line ++ ">" ++
    f.lineTitleWithLinkIfNeeded classes lineDigits line ++ "\n</span>"] ++
  (if highlight then ["</span>"] else [])

/-- The line-number table column loop of `writeHTML` (source). -/
def tableLoop (f : Formatter) (classes : TokenType → String)
    (lineDigits : Nat) : Nat → Nat → Nat → List String
  | 0, _, _ => []
  | n + 1, line, hi =>
    let hn := f.shouldHighlight hi line
    tableLinePieces f classes lineDigits line hn.1 ++
    tableLoop f classes lineDigits n (line + 1) (hi + if hn.2 then 1 else 0)

/-- The write pieces emitted for one code line of the main loop of
`writeHTML` (source). -/
def mainLinePieces (f : Formatter) (classes : TokenType → String)
    (wrapInTable : Bool) (lineDigits line : Nat) (highlight : Bool)
    (toks : List Token) : List String :=
  (if ¬(f.preventSurroundingPre ∨ f.inlineCode) then
    ["<span"] ++
    (if highlight then
      let lineClasses := trimString (String.intercalate " "
        [classes TokenType.Line, classes TokenType.LineHighlight])
      (if lineClasses ≠ "" then [" class=\"" ++ lineClasses ++ "\""] else []) ++
      [">"]
    else [f.classAttr classes TokenType.Line [] ++ ">"]) ++
    (if f.lineNumbers ∧ ¬wrapInTable then
      ["<span" ++ f.classAttr classes TokenType.LineNumbers [] ++
        f.lineIDAttribute line ++ ">" ++
        f.lineTitleWithLinkIfNeeded classes lineDigits line ++ "</span>"]
    else []) ++
    ["<span" ++ f.classAttr classes TokenType.CodeLine [] ++ ">"]
  else []) ++
  toks.map (tokenHTML f classes) ++
  (if ¬(f.preventSurroundingPre ∨ f.inlineCode) then ["</span>", "</span>"]
  else [])

/-- The main code-line loop of `writeHTML` (source). -/
def mainLoop (f : Formatter) (classes : TokenType → String)
    (wrapInTable : Bool) (lineDigits : Nat) :
    List (List Token) → Nat → Nat → List String
  | [], _, _ => []
  | toks :: rest, line, hi =>
    let hn := f.shouldHighlight hi line
    mainLinePieces f classes wrapInTable lineDigits line hn.1 toks ++
    mainLoop f classes wrapInTable lineDigits rest (line + 1)
      (hi + if hn.2 then 1 else 0)

/-- `writeHTML` (source), as the ordered sequence of strings passed to the
output sink, one element per `fmt.Fprint` / `fmt.Fprintf` call. -/
def writeHTMLPieces (f : Formatter) (style : Style) (tokens : List Token) :
    List String :=
  let classes := f.classes style f.darkStyle
  let wrapInTable := f.lineNumbers && f.lineNumbersInTable
  let lines := splitTokensIntoLines tokens
  let lineDigits := (toString (f.baseLineNumber + lines.length - 1)).length
  (if f.standalone then
    ["<html>\n",
      "<body" ++ f.classAttr classes TokenType.Background [] ++ ">\n"]
  else []) ++
  (if wrapInTable then
    ["<div" ++ f.classAttr classes TokenType.PreWrapper [] ++ ">\n",
      "<table" ++ f.classAttr classes TokenType.LineTable [] ++ "><tr>",
      "<td" ++ f.classAttr classes TokenType.LineTableTD [] ++ ">\n",
      f.preWrapper.start false (f.classAttr classes TokenType.PreWrapper [])] ++
    tableLoop f classes lineDigits lines.length f.baseLineNumber 0 ++
    [f.preWrapper.stop false, "</td>\n",
      "<td" ++ f.classAttr classes TokenType.LineTableTD ["w-full"] ++ ">\n"]
  else []) ++
  [f.preWrapper.start true (f.classAttr classes TokenType.PreWrapper [])] ++
  mainLoop f classes wrapInTable lineDigits lines f.baseLineNumber 0 ++
  [f.preWrapper.stop true] ++
  (if wrapInTable then ["</td></tr></table>\n", "</div>\n"] else []) ++
  (if f.standalone then ["\n</body>\n", "</html>\n"] else [])

/-- Execute the sequence of sink writes exactly as `writeHTML` does: each
`fmt.Fprint` call hands one piece to the sink, and its returned error is
discarded, so the next write still happens and no error is ever
propagated.  The result is the error value `writeHTML` returns. -/
def runWrites (sink : Nat → Option String) :
    List String → Nat → Option String
  | [], _ => none
  | _ :: rest, n =>
    match sink n with
    | some _ => runWrites sink rest (n + 1)
    | none => runWrites sink rest (n + 1)

/-- `Format` (source): render through `writeHTML` against the given sink
and return `writeHTML`'s error value. -/
def Formatter.format (f : Formatter) (sink : Nat → Option String)
    (style : Style) (tokens : List Token) : Option String :=
  runWrites sink (writeHTMLPieces f style tokens) 0

/-- The text written by a complete render (concatenation of all write
pieces). -/
def outputString (f : Formatter) (style : Style) (tokens : List Token) :
    String :=
  String.join (writeHTMLPieces f style tokens)

/-- `classCacheLimit` (source). -/
def classCacheLimit : Nat := 32

/-- One entry of the class cache (source `classCacheEntry`): the light and
dark theme identities (Go pointer equality on `*chroma.Style`, modelled by
`Nat` identifiers) and the cached mapping. -/
structure CacheEntry (α : Type) where
  light : Nat
  dark : Nat
  cache : α
deriving DecidableEq, Repr

/-- The backwards scan of `classCache.get` (source): the cache slice is
scanned from its end (most recently used first); this helper receives the
reversed slice and removes the first match it finds, keeping the rest in
order. -/
def findHit {α : Type} (l d : Nat) :
    List (CacheEntry α) → Option (CacheEntry α × List (CacheEntry α))
  | [] => none
  | e :: rest =>
    if e.light = l ∧ e.dark = d then some (e, rest)
    else (findHit l d rest).map (fun p => (p.1, e :: p.2))

/-- `classCache.get` (source): normalize a nil dark style to the light one,
scan most-recently-used first for an identity match; on a hit move the
entry to the most-recently-used end (no compute call); on a miss compute
the mapping, evict the least-recently-used (front) entry when the cache is
at `classCacheLimit`, and append the new entry as most-recently-used.  The
third component counts the invocations of the class-computation function
`c.f.classes` made by this call (0 on a hit, 1 on a miss). -/
def cacheGet {α : Type} (compute : Nat → Nat → α)
    (st : List (CacheEntry α)) (l : Nat) (dOpt : Option Nat) :
    α × List (CacheEntry α) × Nat :=
  let d := dOpt.getD l
  match findHit l d st.reverse with
  | some (e, rest) => (e.cache, (e :: rest).reverse, 0)
  | none =>
    let m := compute l d
    let st1 := if classCacheLimit ≤ st.length then st.drop 1 else st
    (m, st1 ++ [⟨l, d, m⟩], 1)

/-- Run a sequence of `get` calls against an initially empty cache,
returning the final cache state. -/
def runGets {α : Type} (compute : Nat → Nat → α)
    (keys : List (Nat × Nat)) : List (CacheEntry α) :=
  keys.foldl (fun st k => (cacheGet compute st k.1 (some k.2)).2.1) []

/-- A cache entry matches a key pair when both identities agree. -/
def entryMatches {α : Type} (e : CacheEntry α) (l d : Nat) : Prop :=
  e.light = l ∧ e.dark = d

instance {α : Type} (e : CacheEntry α) (l d : Nat) :
    Decidable (entryMatches e l d) := by
  unfold entryMatches; infer_instance

/-- The comparison of the source `highlightRanges.Less`: order ranges by
their start line only. -/
def leStart (a b : HRange) : Prop :=
  a.1 ≤ b.1

instance : DecidableRel leStart := fun a b => Nat.decLe a.1 b.1

instance : IsTotal HRange leStart := ⟨fun a b => Nat.le_total a.1 b.1⟩

instance : IsTrans HRange leStart := ⟨fun _ _ _ h1 h2 => Nat.le_trans h1 h2⟩

/-- The `sort.Sort(f.highlightRanges)` step of `HighlightLines` (source):
produce the range list ordered ascending by start line.  Go's standard sort
is an unstable comparison sort; any sorted permutation is a faithful model,
here insertion sort. -/
def sortRanges (rs : List HRange) : List HRange :=
  List.insertionSort leStart rs

/-- The `HighlightLines` option (source), at the level of the formatter
value: store the ranges and sort them by start line. -/
def HighlightLines (ranges : List HRange) (f : Formatter) : Formatter :=
  { f with highlightRanges := sortRanges ranges }

/-- The `TabWidth` option (source). -/
def TabWidth (width : Nat) (f : Formatter) : Formatter :=
  { f with tabWidth := width }

/-- A heap of Go slices of highlight ranges, indexed by slice identity;
used to model the in-place aliasing effect of `HighlightLines` on the
caller-supplied slice. -/
def RangeHeap := Nat → List HRange

/-- `HighlightLines` at the heap level (source): the formatter stores the
caller's slice itself (no copy), then sorts that slice in place, so the
caller's array is reordered; the formatter retains the same slice
reference. -/
def highlightLinesHeap (h : RangeHeap) (ref : Nat) : RangeHeap × Nat :=
  (fun r => if r = ref then sortRanges (h r) else h r, ref)

/-! ## Shared helper lemmas -/

/-- `writeHTML` discards every write error, so the error it returns is
`nil` no matter what the sink reports. -/
theorem runWrites_eq_none (sink : Nat → Option String) :
    ∀ (pieces : List String) (n : Nat), runWrites sink pieces n = none := by
  intro pieces
  induction pieces with
  | nil => intro n; rfl
  | cons p rest ih =>
    intro n
    unfold runWrites
    cases sink n with
    | none => exact ih (n + 1)
    | some e => exact ih (n + 1)

theorem string_append_left_cancel {s a b : String} (h : s ++ a = s ++ b) :
    a = b := by
  apply String.ext
  have h2 := congrArg String.data h
  rw [String.data_append, String.data_append] at h2
  exact List.append_cancel_left h2

theorem string_append_ne_empty_right (a b : String) (hb : b ≠ "") :
    a ++ b ≠ "" := by
  intro h
  apply hb
  have h2 := congrArg String.data h
  rw [String.data_append] at h2
  rcases List.append_eq_nil.mp h2 with ⟨-, h4⟩
  exact String.ext h4

theorem hex6_ne_empty (c : Nat) : hex6 c ≠ "" := by
  intro h
  have := congrArg String.data h
  simp [hex6] at this

theorem colourString_eq (c : Nat) : colourString c = "#" ++ hex6 c := rfl

/-- A rendered colour class value is never the empty string. -/
theorem text_class_ne_empty (pre post : String) (c : Nat) :
    pre ++ colourString c ++ post ≠ "" := by
  intro h
  have h2 := congrArg String.data h
  rw [String.data_append, String.data_append, colourString_eq,
    String.data_append] at h2
  rcases List.append_eq_nil.mp h2 with ⟨h3, -⟩
  rcases List.append_eq_nil.mp h3 with ⟨-, h4⟩
  rcases List.append_eq_nil.mp h4 with ⟨h5, -⟩
  have : ('#' : Char) :: [] = [] := h5
  exact absurd this (by simp)

/-- The text field of the derived entry values is empty exactly when the
foreground colour is unset. -/
theorem entryValues_text_empty_iff (e : StyleEntry) :
    (entryValuesFrom e).text = "" ↔ e.colour = none := by
  cases h : e.colour with
  | none => simp [entryValuesFrom, h]
  | some c =>
    simp only [entryValuesFrom, h]
    constructor
    · intro hc; exact absurd hc (text_class_ne_empty "text-[" "]" c)
    · intro hc; cases hc

/-- The background field of the derived entry values is empty exactly when
the background colour is unset. -/
theorem entryValues_bg_empty_iff (e : StyleEntry) :
    (entryValuesFrom e).bg = "" ↔ e.background = none := by
  cases h : e.background with
  | none => simp [entryValuesFrom, h]
  | some c =>
    simp only [entryValuesFrom, h]
    constructor
    · intro hc; exact absurd hc (text_class_ne_empty "bg-[" "]" c)
    · intro hc; cases hc

/-! ## Concrete fixtures used by witnesses and counterexamples -/

/-- An empty style entry. -/
def emptyEntry : StyleEntry :=
  ⟨none, none, Trilean.pass, Trilean.pass, Trilean.pass⟩

/-- A small concrete light theme: dark-red bold keywords on white. -/
def testLight : Style :=
  ⟨fun t => match t with
    | TokenType.Keyword => ⟨some 0xd73a49, none, Trilean.yes, Trilean.pass, Trilean.pass⟩
    | TokenType.Background => ⟨some 0x111111, some 0xffffff, Trilean.pass, Trilean.pass, Trilean.pass⟩
    | _ => emptyEntry⟩

/-- A small concrete dark theme: light-red keywords on near-black. -/
def testDark : Style :=
  ⟨fun t => match t with
    | TokenType.Keyword => ⟨some 0xff7b72, none, Trilean.pass, Trilean.pass, Trilean.pass⟩
    | TokenType.Background => ⟨some 0xcccccc, some 0x0d1117, Trilean.pass, Trilean.pass, Trilean.pass⟩
    | _ => emptyEntry⟩

/-- A sink whose every write fails with the error "boom". -/
def boomSink : Nat → Option String := fun _ => some "boom"

/-! ## C1 -/

/-- C1 counterexample.  The claim says a failing write makes `Format`
return the sink's error immediately; on a sink whose first (and every)
write fails with "boom", and a render that performs at least one write,
`Format` nevertheless does not return that error (it returns `nil`). -/
theorem format_ignores_sink_error_counterexample :
    boomSink 0 = some "boom" ∧
    writeHTMLPieces { } testLight [⟨TokenType.Keyword, "func"⟩] ≠ [] ∧
    Formatter.format { } boomSink testLight [⟨TokenType.Keyword, "func"⟩] ≠
      some "boom" := by
  refine ⟨rfl, by decide, ?_⟩
  rw [Formatter.format, runWrites_eq_none]
  intro h
  cases h

/-- C1 (amended): `Format` never fails.  Every write error reported by the
caller-supplied sink is discarded by `writeHTML`, the render always runs to
completion, and `Format` returns `nil` for every formatter configuration,
sink behaviour, style and token stream. -/
theorem format_always_returns_nil (f : Formatter) (sink : Nat → Option String)
    (style : Style) (tokens : List Token) :
    f.format sink style tokens = none :=
  runWrites_eq_none sink (writeHTMLPieces f style tokens) 0

/-! ## Cache lemmas -/

theorem findHit_matches {α : Type} {l d : Nat} :
    ∀ {xs : List (CacheEntry α)} {e : CacheEntry α}
      {rest : List (CacheEntry α)},
      findHit l d xs = some (e, rest) → e.light = l ∧ e.dark = d := by
  intro xs
  induction xs with
  | nil => intro e rest h; cases h
  | cons x tail ih =>
    intro e rest h
    by_cases hx : x.light = l ∧ x.dark = d
    · rw [findHit, if_pos hx] at h
      cases h
      exact hx
    · rw [findHit, if_neg hx] at h
      cases htail : findHit l d tail with
      | none => rw [htail] at h; cases h
      | some p =>
        rw [htail] at h
        cases h
        exact ih htail

theorem findHit_length {α : Type} {l d : Nat} :
    ∀ {xs : List (CacheEntry α)} {e : CacheEntry α}
      {rest : List (CacheEntry α)},
      findHit l d xs = some (e, rest) → rest.length + 1 = xs.length := by
  intro xs
  induction xs with
  | nil => intro e rest h; cases h
  | cons x tail ih =>
    intro e rest h
    by_cases hx : x.light = l ∧ x.dark = d
    · rw [findHit, if_pos hx] at h
      cases h
      rfl
    · rw [findHit, if_neg hx] at h
      cases htail : findHit l d tail with
      | none => rw [htail] at h; cases h
      | some p =>
        rw [htail] at h
        cases h
        simp [← ih htail]

theorem findHit_eq_none_iff {α : Type} {l d : Nat}
    {xs : List (CacheEntry α)} :
    findHit l d xs = none ↔ ∀ e ∈ xs, ¬entryMatches e l d := by
  induction xs with
  | nil => simp [findHit]
  | cons x tail ih =>
    by_cases hx : x.light = l ∧ x.dark = d
    · rw [findHit, if_pos hx]
      constructor
      · intro h; cases h
      · intro h; exact absurd hx (h x (List.mem_cons_self x tail))
    · rw [findHit, if_neg hx]
      constructor
      · intro h e he
        rcases List.mem_cons.mp he with rfl | hmem
        · exact hx
        · cases htail : findHit l d tail with
          | none => exact (ih.mp htail) e hmem
          | some p => rw [htail] at h; cases h
      · intro h
        have : findHit l d tail = none :=
          ih.mpr (fun e he => h e (List.mem_cons_of_mem x he))
        rw [this]
        rfl

theorem findHit_append_no_match {α : Type} {l d : Nat}
    {xs : List (CacheEntry α)} (hxs : ∀ e ∈ xs, ¬entryMatches e l d)
    (ys : List (CacheEntry α)) :
    findHit l d (xs ++ ys) =
      (findHit l d ys).map (fun p => (p.1, xs ++ p.2)) := by
  induction xs with
  | nil =>
    simp only [List.nil_append]
    cases findHit l d ys <;> rfl
  | cons x tail ih =>
    have hx : ¬(x.light = l ∧ x.dark = d) := hxs x (List.mem_cons_self x tail)
    rw [List.cons_append, findHit, if_neg hx,
      ih (fun e he => hxs e (List.mem_cons_of_mem x he))]
    cases findHit l d ys with
    | none => rfl
    | some p => rfl

theorem findHit_cons_match {α : Type} {l d : Nat} {e : CacheEntry α}
    (he : entryMatches e l d) (xs : List (CacheEntry α)) :
    findHit l d (e :: xs) = some (e, xs) := by
  rw [findHit, if_pos ⟨he.1, he.2⟩]

/-- Reduction of `cacheGet` on a hit. -/
theorem cacheGet_hit_eq {α : Type} (compute : Nat → Nat → α)
    (st : List (CacheEntry α)) (l : Nat) (dOpt : Option Nat)
    {e : CacheEntry α} {rest : List (CacheEntry α)}
    (h : findHit l (dOpt.getD l) st.reverse = some (e, rest)) :
    cacheGet compute st l dOpt = (e.cache, (e :: rest).reverse, 0) := by
  simp only [cacheGet]
  rw [h]

/-- Reduction of `cacheGet` on a miss. -/
theorem cacheGet_miss_eq {α : Type} (compute : Nat → Nat → α)
    (st : List (CacheEntry α)) (l : Nat) (dOpt : Option Nat)
    (h : findHit l (dOpt.getD l) st.reverse = none) :
    cacheGet compute st l dOpt =
      (compute l (dOpt.getD l),
        (if classCacheLimit ≤ st.length then st.drop 1 else st) ++
          [⟨l, dOpt.getD l, compute l (dOpt.getD l)⟩], 1) := by
  simp only [cacheGet]
  rw [h]

/-- After any `get`, the requested pair sits at the most-recently-used end
of the cache with the returned mapping. -/
theorem cacheGet_state_snoc {α : Type} (compute : Nat → Nat → α)
    (st : List (CacheEntry α)) (l : Nat) (dOpt : Option Nat) :
    ∃ zs, (cacheGet compute st l dOpt).2.1 =
      zs ++ [⟨l, dOpt.getD l, (cacheGet compute st l dOpt).1⟩] := by
  cases hmatch : findHit l (dOpt.getD l) st.reverse with
  | none => rw [cacheGet_miss_eq compute st l dOpt hmatch]; exact ⟨_, rfl⟩
  | some p =>
    obtain ⟨e, rest⟩ := p
    rw [cacheGet_hit_eq compute st l dOpt hmatch]
    obtain ⟨h1, h2⟩ := findHit_matches hmatch
    refine ⟨rest.reverse, ?_⟩
    rw [List.reverse_cons]
    obtain ⟨el, ed, ec⟩ := e
    have h1e : el = l := h1
    have h2e : ed = dOpt.getD l := h2
    subst h1e
    subst h2e
    rfl

/-- A `get` on a cache whose most-recently-used entry matches the key is a
pure hit: the stored mapping is returned, the state is unchanged, and the
compute function is not invoked. -/
theorem cacheGet_snoc_hit {α : Type} (compute : Nat → Nat → α)
    (zs : List (CacheEntry α)) (e : CacheEntry α) (l : Nat)
    (dOpt : Option Nat) (hl : e.light = l) (hd : e.dark = dOpt.getD l) :
    cacheGet compute (zs ++ [e]) l dOpt = (e.cache, zs ++ [e], 0) := by
  have hfind : findHit l (dOpt.getD l) ((zs ++ [e]).reverse) =
      some (e, zs.reverse) := by
    rw [List.reverse_append, List.reverse_singleton, List.singleton_append]
    exact findHit_cons_match ⟨hl, hd⟩ zs.reverse
  rw [cacheGet_hit_eq compute (zs ++ [e]) l dOpt hfind]
  rw [List.reverse_cons, List.reverse_reverse]

/-! ## C5 -/

/-- C5: two successive `get` calls with the same (light, dark) theme
identities (the second immediately after the first) return the same
mapping; the second call performs no invocation of the class-computation
function and leaves the cache state completely unchanged (the entry is
already at the most-recently-used position). -/
theorem cache_get_idempotent {α : Type} (compute : Nat → Nat → α)
    (st : List (CacheEntry α)) (l : Nat) (dOpt : Option Nat) :
    cacheGet compute (cacheGet compute st l dOpt).2.1 l dOpt =
      ((cacheGet compute st l dOpt).1, (cacheGet compute st l dOpt).2.1, 0) := by
  obtain ⟨zs, hzs⟩ := cacheGet_state_snoc compute st l dOpt
  rw [hzs]
  exact cacheGet_snoc_hit compute zs _ l dOpt rfl rfl

/-- One `get` keeps the cache within the capacity bound. -/
theorem cacheGet_length_le {α : Type} (compute : Nat → Nat → α)
    (st : List (CacheEntry α)) (l : Nat) (dOpt : Option Nat)
    (h : st.length ≤ classCacheLimit) :
    (cacheGet compute st l dOpt).2.1.length ≤ classCacheLimit := by
  cases hmatch : findHit l (dOpt.getD l) st.reverse with
  | some p =>
    obtain ⟨e, rest⟩ := p
    rw [cacheGet_hit_eq compute st l dOpt hmatch]
    have hlen := findHit_length hmatch
    rw [List.length_reverse] at hlen
    simp only [List.length_reverse, List.length_cons]
    omega
  | none =>
    rw [cacheGet_miss_eq compute st l dOpt hmatch]
    by_cases hfull : classCacheLimit ≤ st.length
    · rw [if_pos hfull]
      simp only [List.length_append, List.length_drop, List.length_cons,
        List.length_nil]
      have hc : (1 : Nat) ≤ classCacheLimit := by decide
      omega
    · rw [if_neg hfull]
      simp only [List.length_append, List.length_cons, List.length_nil]
      omega

/-- Any sequence of `get` calls from the empty cache keeps at most
`classCacheLimit` entries. -/
theorem runGets_length_le {α : Type} (compute : Nat → Nat → α)
    (keys : List (Nat × Nat)) :
    (runGets compute keys).length ≤ classCacheLimit := by
  have gen : ∀ (ks : List (Nat × Nat)) (st : List (CacheEntry α)),
      st.length ≤ classCacheLimit →
      (ks.foldl (fun st k => (cacheGet compute st k.1 (some k.2)).2.1)
        st).length ≤ classCacheLimit := by
    intro ks
    induction ks with
    | nil => intro st h; exact h
    | cons k rest ih =>
      intro st h
      exact ih _ (cacheGet_length_le compute st k.1 (some k.2) h)
  exact gen keys [] (by simp [classCacheLimit])

/-- A miss on a full cache evicts the least-recently-used (front) entry and
appends the freshly computed one as most-recently-used. -/
theorem cacheGet_full_miss_evicts {α : Type} (compute : Nat → Nat → α)
    (st : List (CacheEntry α)) (l d : Nat)
    (hfull : st.length = classCacheLimit)
    (hmiss : ∀ x ∈ st, ¬entryMatches x l d) :
    (cacheGet compute st l (some d)).2.1 =
      st.drop 1 ++ [⟨l, d, compute l d⟩] := by
  have hfind : findHit l ((some d).getD l) st.reverse = none :=
    findHit_eq_none_iff.mpr (fun e he => hmiss e (List.mem_reverse.mp he))
  rw [cacheGet_miss_eq compute st l (some d) hfind]
  rw [if_pos (le_of_eq hfull.symm)]
  rfl

/-- A hit moves the (unique) matching entry to the most-recently-used end,
returning its stored mapping and performing no computation. -/
theorem cacheGet_hit_move {α : Type} (compute : Nat → Nat → α)
    (P Q : List (CacheEntry α)) (e : CacheEntry α) (l d : Nat)
    (he : entryMatches e l d) (hQ : ∀ x ∈ Q, ¬entryMatches x l d) :
    cacheGet compute (P ++ [e] ++ Q) l (some d) =
      (e.cache, P ++ Q ++ [e], 0) := by
  have hfind : findHit l ((some d).getD l) ((P ++ [e] ++ Q).reverse) =
      some (e, Q.reverse ++ P.reverse) := by
    show findHit l d ((P ++ [e] ++ Q).reverse) = some (e, Q.reverse ++ P.reverse)
    rw [List.reverse_append, List.reverse_append, List.reverse_singleton,
      findHit_append_no_match (fun x hx => hQ x (List.mem_reverse.mp hx)),
      List.singleton_append, findHit_cons_match he]
    rfl
  rw [cacheGet_hit_eq compute _ l (some d) hfind]
  rw [List.reverse_cons, List.reverse_append, List.reverse_reverse,
    List.reverse_reverse, List.append_assoc]

/-- Running distinct key pairs through the cache from empty leaves exactly
the last `classCacheLimit` pairs, in insertion order, each carrying its
computed mapping. -/
theorem runGets_nodup_formula {α : Type} (compute : Nat → Nat → α)
    (keys : List (Nat × Nat)) (hnd : keys.Nodup) :
    runGets compute keys =
      (keys.drop (keys.length - classCacheLimit)).map
        (fun k => (⟨k.1, k.2, compute k.1 k.2⟩ : CacheEntry α)) := by
  induction keys using List.reverseRecOn with
  | nil => rfl
  | append_singleton ks k ih =>
    rw [List.nodup_append] at hnd
    have hks : ks.Nodup := hnd.1
    have hkfresh : k ∉ ks := fun hk => hnd.2.2 hk (List.mem_singleton.mpr rfl)
    have hsnoc : runGets compute (ks ++ [k]) =
        (cacheGet compute (runGets compute ks) k.1 (some k.2)).2.1 := by
      simp [runGets, List.foldl_append]
    rw [hsnoc, ih hks]
    have hmiss : ∀ x ∈ (ks.drop (ks.length - classCacheLimit)).map
        (fun k' => (⟨k'.1, k'.2, compute k'.1 k'.2⟩ : CacheEntry α)),
        ¬entryMatches x k.1 k.2 := by
      intro x hx hmatch
      obtain ⟨k', hk', rfl⟩ := List.mem_map.mp hx
      obtain ⟨h1, h2⟩ := hmatch
      have hkk : k' = k := Prod.ext h1 h2
      exact hkfresh (hkk ▸ List.mem_of_mem_drop hk')
    have hfind : findHit k.1 ((some k.2).getD k.1)
        ((ks.drop (ks.length - classCacheLimit)).map
          (fun k' => (⟨k'.1, k'.2, compute k'.1 k'.2⟩ : CacheEntry α))).reverse =
        none :=
      findHit_eq_none_iff.mpr (fun e he => hmiss e (List.mem_reverse.mp he))
    rw [cacheGet_miss_eq compute _ k.1 (some k.2) hfind]
    by_cases hlen : classCacheLimit ≤ ks.length
    · rw [if_pos (by simp only [List.length_map, List.length_drop]; omega)]
      rw [← List.map_drop, List.drop_drop]
      have harith : ks.length - classCacheLimit + 1 =
          (ks ++ [k]).length - classCacheLimit := by
        simp only [List.length_append, List.length_singleton]
        omega
      rw [harith]
      have hc : (1 : Nat) ≤ classCacheLimit := by decide
      have hlapp : (ks ++ [k]).length = ks.length + 1 := by simp
      have hsplit : (ks ++ [k]).drop ((ks ++ [k]).length - classCacheLimit) =
          ks.drop ((ks ++ [k]).length - classCacheLimit) ++ [k] :=
        List.drop_append_of_le_length (by omega)
      rw [hsplit, List.map_append]
      rfl
    · rw [if_neg (by simp only [List.length_map, List.length_drop]; omega)]
      have h1 : ks.length - classCacheLimit = 0 := by omega
      have h2 : (ks ++ [k]).length - classCacheLimit = 0 := by
        simp only [List.length_append, List.length_singleton]
        unfold classCacheLimit at hlen ⊢
        omega
      rw [h1, h2, List.drop_zero, List.drop_zero, List.map_append]
      rfl

/-- Inserting more distinct pairs than the capacity evicts the first
(least-recently-accessed) pair: no entry for it remains. -/
theorem runGets_evicts_first {α : Type} (compute : Nat → Nat → α)
    (k0 : Nat × Nat) (rest : List (Nat × Nat))
    (hnd : (k0 :: rest).Nodup)
    (hlen : classCacheLimit < (k0 :: rest).length) :
    ∀ e ∈ runGets compute (k0 :: rest), ¬entryMatches e k0.1 k0.2 := by
  intro e he hmatch
  rw [runGets_nodup_formula compute (k0 :: rest) hnd] at he
  obtain ⟨m, hm⟩ : ∃ m, (k0 :: rest).length - classCacheLimit = m + 1 :=
    ⟨(k0 :: rest).length - classCacheLimit - 1, by omega⟩
  rw [hm, List.drop_succ_cons] at he
  obtain ⟨k', hk', rfl⟩ := List.mem_map.mp he
  obtain ⟨h1, h2⟩ := hmatch
  have hkk : k' = k0 := Prod.ext h1 h2
  have : k0 ∈ rest := hkk ▸ List.mem_of_mem_drop hk'
  exact (List.nodup_cons.mp hnd).1 this

/-! ## C4 -/

/-- C4: the class cache is a strict LRU store of fixed capacity
`classCacheLimit = 32`:
1. every sequence of `get` calls starting from the empty cache leaves at
   most 32 entries;
2. a `get` that misses on a full cache evicts the least-recently-used
   (front) entry before appending the new one as most-recently-used;
3. a hit moves the matching entry to the most-recently-used end without
   recomputation;
4. accessing a pair while the cache is full protects it from the eviction
   triggered by the next fresh pair;
5. running distinct identity pairs from the empty cache retains exactly the
   last 32 pairs in order, so inserting more than 32 distinct pairs evicts
   the least-recently-accessed one (6). -/
theorem classCache_strict_lru {α : Type} (compute : Nat → Nat → α) :
    (∀ keys : List (Nat × Nat),
      (runGets compute keys).length ≤ classCacheLimit) ∧
    (∀ (st : List (CacheEntry α)) (l d : Nat),
      st.length = classCacheLimit → (∀ x ∈ st, ¬entryMatches x l d) →
      (cacheGet compute st l (some d)).2.1 =
        st.drop 1 ++ [⟨l, d, compute l d⟩]) ∧
    (∀ (P Q : List (CacheEntry α)) (e : CacheEntry α) (l d : Nat),
      entryMatches e l d → (∀ x ∈ Q, ¬entryMatches x l d) →
      cacheGet compute (P ++ [e] ++ Q) l (some d) =
        (e.cache, P ++ Q ++ [e], 0)) ∧
    (∀ (P Q : List (CacheEntry α)) (e : CacheEntry α) (l d lf df : Nat),
      (P ++ [e] ++ Q).length = classCacheLimit →
      entryMatches e l d → (∀ x ∈ Q, ¬entryMatches x l d) →
      (∀ x ∈ P ++ [e] ++ Q, ¬entryMatches x lf df) →
      e ∈ (cacheGet compute
        (cacheGet compute (P ++ [e] ++ Q) l (some d)).2.1 lf (some df)).2.1) ∧
    (∀ keys : List (Nat × Nat), keys.Nodup →
      runGets compute keys =
        (keys.drop (keys.length - classCacheLimit)).map
          (fun k => (⟨k.1, k.2, compute k.1 k.2⟩ : CacheEntry α))) ∧
    (∀ (k0 : Nat × Nat) (rest : List (Nat × Nat)),
      (k0 :: rest).Nodup → classCacheLimit < (k0 :: rest).length →
      ∀ e ∈ runGets compute (k0 :: rest), ¬entryMatches e k0.1 k0.2) := by
  refine ⟨runGets_length_le compute, cacheGet_full_miss_evicts compute,
    fun P Q e l d he hQ => cacheGet_hit_move compute P Q e l d he hQ,
    ?_, runGets_nodup_formula compute, runGets_evicts_first compute⟩
  intro P Q e l d lf df hfull he hQ hfresh
  rw [cacheGet_hit_move compute P Q e l d he hQ]
  have hmiss1 : ∀ x ∈ P ++ Q ++ [e], ¬entryMatches x lf df := by
    intro x hx
    apply hfresh
    rcases List.mem_append.mp hx with hx1 | hx2
    · rcases List.mem_append.mp hx1 with hp | hq
      · exact List.mem_append_left _ (List.mem_append_left _ hp)
      · exact List.mem_append_right _ hq
    · exact List.mem_append_left _ (List.mem_append_right _ hx2)
  have hlen1 : (P ++ Q ++ [e]).length = classCacheLimit := by
    simp only [List.length_append, List.length_cons, List.length_nil,
      List.length_singleton] at hfull ⊢
    omega
  rw [cacheGet_full_miss_evicts compute (P ++ Q ++ [e]) lf df hlen1 hmiss1]
  apply List.mem_append_left
  cases P with
  | cons p P2 => simp
  | nil =>
    cases Q with
    | cons q Q2 => simp
    | nil =>
      exfalso
      simp at hfull
      have h32 : classCacheLimit = 32 := rfl
      omega

/-- Concrete full cache state used to witness the LRU claims. -/
def st32 : List (CacheEntry Nat) :=
  (List.range 32).map (fun i => ⟨i, i, i * 1000 + i⟩)

/-- Concrete distinct key sequence of length 33. -/
def keysTail32 : List (Nat × Nat) :=
  (List.range 32).map (fun i => (i + 1, i + 1))

/-- C4 witness: at concrete inputs, a miss on the full 32-entry cache
evicts the front entry, and 33 distinct pairs starting from the empty
cache leave no entry for the first pair. -/
theorem classCache_strict_lru_witness :
    st32.length = classCacheLimit ∧
    (cacheGet (fun a b => a * 1000 + b) st32 50 (some 50)).2.1 =
      st32.drop 1 ++ [⟨50, 50, 50050⟩] ∧
    (∀ e ∈ runGets (fun a b => a * 1000 + b) (((0 : Nat), (0 : Nat)) :: keysTail32),
      ¬entryMatches e 0 0) := by
  refine ⟨by decide, ?_, ?_⟩
  · exact (classCache_strict_lru (fun a b => a * 1000 + b)).2.1 st32 50 50
      (by decide) (by decide)
  · exact (classCache_strict_lru (fun a b => a * 1000 + b)).2.2.2.2.2 (0, 0)
      keysTail32 (by decide) (by decide)

/-! ## Style differ lemmas -/

/-- The dark-variant part of the per-category class parts. -/
def dvcAt (f : Formatter) (L D : Style) (t : TokenType) : List String :=
  f.darkVariantClasses (lightValuesAt L t) (darkValuesAt D t)

/-- The class parts of a category decompose into structural, light, and
dark-variant parts. -/
theorem classParts_decomp (f : Formatter) (L D : Style) (t : TokenType) :
    classParts f L D t =
      f.prefixedClasses (f.baseClasses t) ++
      (lightValuesAt L t).classes f.pfx ++ dvcAt f L D t := rfl

theorem mem_classParts_of_mem_dvc {f : Formatter} {L D : Style}
    {t : TokenType} {x : String} (h : x ∈ dvcAt f L D t) :
    x ∈ classParts f L D t := by
  rw [classParts_decomp]
  exact List.mem_append_right _ h

theorem mem_dvc_text {f : Formatter} {lv dv : entryValues} {x : String}
    (h : x ∈ darkTextBlock f lv dv) : x ∈ f.darkVariantClasses lv dv :=
  List.mem_append_left _ (List.mem_append_left _ (List.mem_append_left _
    (List.mem_append_left _ h)))

theorem mem_dvc_bg {f : Formatter} {lv dv : entryValues} {x : String}
    (h : x ∈ darkBgBlock f lv dv) : x ∈ f.darkVariantClasses lv dv :=
  List.mem_append_left _ (List.mem_append_left _ (List.mem_append_left _
    (List.mem_append_right _ h)))

theorem mem_dvc_bold {f : Formatter} {lv dv : entryValues} {x : String}
    (h : x ∈ darkBoldBlock f lv dv) : x ∈ f.darkVariantClasses lv dv :=
  List.mem_append_left _ (List.mem_append_left _ (List.mem_append_right _ h))

theorem mem_dvc_italic {f : Formatter} {lv dv : entryValues} {x : String}
    (h : x ∈ darkItalicBlock f lv dv) : x ∈ f.darkVariantClasses lv dv :=
  List.mem_append_left _ (List.mem_append_right _ h)

theorem mem_dvc_underline {f : Formatter} {lv dv : entryValues} {x : String}
    (h : x ∈ darkUnderlineBlock f lv dv) : x ∈ f.darkVariantClasses lv dv :=
  List.mem_append_right _ h

theorem entryValues_bold_iff (e : StyleEntry) :
    (entryValuesFrom e).bold = true ↔ e.bold = Trilean.yes := by
  simp [entryValuesFrom]

theorem entryValues_italic_iff (e : StyleEntry) :
    (entryValuesFrom e).italic = true ↔ e.italic = Trilean.yes := by
  simp [entryValuesFrom]

theorem entryValues_underline_iff (e : StyleEntry) :
    (entryValuesFrom e).underline = true ↔ e.underline = Trilean.yes := by
  simp [entryValuesFrom]

/-! ## C2 -/

/-- C2: per-field dark-variant derivation, after background subtraction.
For every category and theme pair and for each of the five style fields:
if the (subtracted) dark entry has the field set, the category's class
parts contain the dark-prefixed class for the dark value; if the dark
entry does not have it set but the light entry does, the field's dark
block is exactly the corresponding reset class, which appears in the class
parts; if neither has it set, the field's values are empty and its dark
block emits nothing (and the light class list likewise derives no class
from an empty field value).  Flag fields are set exactly when they are
`Yes`. -/
theorem darkVariant_per_field (f : Formatter) (L D : Style) (t : TokenType) :
    ((∀ c, (subDarkEntry D t).colour = some c →
      f.darkClass ("text-[" ++ colourString c ++ "]") ∈ classParts f L D t) ∧
     ((subDarkEntry D t).colour = none → (subLightEntry L t).colour ≠ none →
      darkTextBlock f (lightValuesAt L t) (darkValuesAt D t) =
        [f.darkClass "text-[inherit]"] ∧
      f.darkClass "text-[inherit]" ∈ classParts f L D t) ∧
     ((subDarkEntry D t).colour = none → (subLightEntry L t).colour = none →
      (lightValuesAt L t).text = "" ∧ (darkValuesAt D t).text = "" ∧
      darkTextBlock f (lightValuesAt L t) (darkValuesAt D t) = [])) ∧
    ((∀ c, (subDarkEntry D t).background = some c →
      f.darkClass ("bg-[" ++ colourString c ++ "]") ∈ classParts f L D t) ∧
     ((subDarkEntry D t).background = none →
      (subLightEntry L t).background ≠ none →
      darkBgBlock f (lightValuesAt L t) (darkValuesAt D t) =
        [f.darkClass "bg-transparent"] ∧
      f.darkClass "bg-transparent" ∈ classParts f L D t) ∧
     ((subDarkEntry D t).background = none →
      (subLightEntry L t).background = none →
      (lightValuesAt L t).bg = "" ∧ (darkValuesAt D t).bg = "" ∧
      darkBgBlock f (lightValuesAt L t) (darkValuesAt D t) = [])) ∧
    (((subDarkEntry D t).bold = Trilean.yes →
      f.darkClass "font-bold" ∈ classParts f L D t) ∧
     ((subDarkEntry D t).bold ≠ Trilean.yes →
      (subLightEntry L t).bold = Trilean.yes →
      darkBoldBlock f (lightValuesAt L t) (darkValuesAt D t) =
        [f.darkClass "font-normal"] ∧
      f.darkClass "font-normal" ∈ classParts f L D t) ∧
     ((subDarkEntry D t).bold ≠ Trilean.yes →
      (subLightEntry L t).bold ≠ Trilean.yes →
      (lightValuesAt L t).bold = false ∧ (darkValuesAt D t).bold = false ∧
      darkBoldBlock f (lightValuesAt L t) (darkValuesAt D t) = [])) ∧
    (((subDarkEntry D t).italic = Trilean.yes →
      f.darkClass "italic" ∈ classParts f L D t) ∧
     ((subDarkEntry D t).italic ≠ Trilean.yes →
      (subLightEntry L t).italic = Trilean.yes →
      darkItalicBlock f (lightValuesAt L t) (darkValuesAt D t) =
        [f.darkClass "not-italic"] ∧
      f.darkClass "not-italic" ∈ classParts f L D t) ∧
     ((subDarkEntry D t).italic ≠ Trilean.yes →
      (subLightEntry L t).italic ≠ Trilean.yes →
      (lightValuesAt L t).italic = false ∧ (darkValuesAt D t).italic = false ∧
      darkItalicBlock f (lightValuesAt L t) (darkValuesAt D t) = [])) ∧
    (((subDarkEntry D t).underline = Trilean.yes →
      f.darkClass "underline" ∈ classParts f L D t) ∧
     ((subDarkEntry D t).underline ≠ Trilean.yes →
      (subLightEntry L t).underline = Trilean.yes →
      darkUnderlineBlock f (lightValuesAt L t) (darkValuesAt D t) =
        [f.darkClass "no-underline"] ∧
      f.darkClass "no-underline" ∈ classParts f L D t) ∧
     ((subDarkEntry D t).underline ≠ Trilean.yes →
      (subLightEntry L t).underline ≠ Trilean.yes →
      (lightValuesAt L t).underline = false ∧
      (darkValuesAt D t).underline = false ∧
      darkUnderlineBlock f (lightValuesAt L t) (darkValuesAt D t) = [])) := by
  refine ⟨⟨?_, ?_, ?_⟩, ⟨?_, ?_, ?_⟩, ⟨?_, ?_, ?_⟩, ⟨?_, ?_, ?_⟩, ⟨?_, ?_, ?_⟩⟩
  · intro c hc
    have htext : (darkValuesAt D t).text = "text-[" ++ colourString c ++ "]" := by
      simp [darkValuesAt, entryValuesFrom, hc]
    apply mem_classParts_of_mem_dvc
    apply mem_dvc_text
    rw [darkTextBlock, if_pos (by rw [htext]; exact text_class_ne_empty _ _ c),
      htext]
    exact List.mem_singleton.mpr rfl
  · intro hd hl
    have hdv : (darkValuesAt D t).text = "" :=
      (entryValues_text_empty_iff _).mpr hd
    have hlv : (lightValuesAt L t).text ≠ "" :=
      fun hh => hl ((entryValues_text_empty_iff _).mp hh)
    have hblock : darkTextBlock f (lightValuesAt L t) (darkValuesAt D t) =
        [f.darkClass "text-[inherit]"] := by
      rw [darkTextBlock, if_neg (by simp [hdv]), if_pos hlv]
    exact ⟨hblock, mem_classParts_of_mem_dvc (mem_dvc_text
      (hblock ▸ List.mem_singleton.mpr rfl))⟩
  · intro hd hl
    have hdv : (darkValuesAt D t).text = "" :=
      (entryValues_text_empty_iff _).mpr hd
    have hlv : (lightValuesAt L t).text = "" :=
      (entryValues_text_empty_iff _).mpr hl
    exact ⟨hlv, hdv, by rw [darkTextBlock, if_neg (by simp [hdv]),
      if_neg (by simp [hlv])]⟩
  · intro c hc
    have hbg : (darkValuesAt D t).bg = "bg-[" ++ colourString c ++ "]" := by
      simp [darkValuesAt, entryValuesFrom, hc]
    apply mem_classParts_of_mem_dvc
    apply mem_dvc_bg
    rw [darkBgBlock, if_pos (by rw [hbg]; exact text_class_ne_empty _ _ c), hbg]
    exact List.mem_singleton.mpr rfl
  · intro hd hl
    have hdv : (darkValuesAt D t).bg = "" :=
      (entryValues_bg_empty_iff _).mpr hd
    have hlv : (lightValuesAt L t).bg ≠ "" :=
      fun hh => hl ((entryValues_bg_empty_iff _).mp hh)
    have hblock : darkBgBlock f (lightValuesAt L t) (darkValuesAt D t) =
        [f.darkClass "bg-transparent"] := by
      rw [darkBgBlock, if_neg (by simp [hdv]), if_pos hlv]
    exact ⟨hblock, mem_classParts_of_mem_dvc (mem_dvc_bg
      (hblock ▸ List.mem_singleton.mpr rfl))⟩
  · intro hd hl
    have hdv : (darkValuesAt D t).bg = "" :=
      (entryValues_bg_empty_iff _).mpr hd
    have hlv : (lightValuesAt L t).bg = "" :=
      (entryValues_bg_empty_iff _).mpr hl
    exact ⟨hlv, hdv, by rw [darkBgBlock, if_neg (by simp [hdv]),
      if_neg (by simp [hlv])]⟩
  · intro hc
    have hdv : (darkValuesAt D t).bold = true :=
      (entryValues_bold_iff _).mpr hc
    apply mem_classParts_of_mem_dvc
    apply mem_dvc_bold
    rw [darkBoldBlock, if_pos hdv]
    exact List.mem_singleton.mpr rfl
  · intro hd hl
    have hdv : (darkValuesAt D t).bold = false := by
      rcases Bool.eq_false_or_eq_true (darkValuesAt D t).bold with h | h
      · exact absurd ((entryValues_bold_iff _).mp h) hd
      · exact h
    have hlv : (lightValuesAt L t).bold = true :=
      (entryValues_bold_iff _).mpr hl
    have hblock : darkBoldBlock f (lightValuesAt L t) (darkValuesAt D t) =
        [f.darkClass "font-normal"] := by
      rw [darkBoldBlock, if_neg (by simp [hdv]), if_pos hlv]
    exact ⟨hblock, mem_classParts_of_mem_dvc (mem_dvc_bold
      (hblock ▸ List.mem_singleton.mpr rfl))⟩
  · intro hd hl
    have hdv : (darkValuesAt D t).bold = false := by
      rcases Bool.eq_false_or_eq_true (darkValuesAt D t).bold with h | h
      · exact absurd ((entryValues_bold_iff _).mp h) hd
      · exact h
    have hlv : (lightValuesAt L t).bold = false := by
      rcases Bool.eq_false_or_eq_true (lightValuesAt L t).bold with h | h
      · exact absurd ((entryValues_bold_iff _).mp h) hl
      · exact h
    exact ⟨hlv, hdv, by rw [darkBoldBlock, if_neg (by simp [hdv]),
      if_neg (by simp [hlv])]⟩
  · intro hc
    have hdv : (darkValuesAt D t).italic = true :=
      (entryValues_italic_iff _).mpr hc
    apply mem_classParts_of_mem_dvc
    apply mem_dvc_italic
    rw [darkItalicBlock, if_pos hdv]
    exact List.mem_singleton.mpr rfl
  · intro hd hl
    have hdv : (darkValuesAt D t).italic = false := by
      rcases Bool.eq_false_or_eq_true (darkValuesAt D t).italic with h | h
      · exact absurd ((entryValues_italic_iff _).mp h) hd
      · exact h
    have hlv : (lightValuesAt L t).italic = true :=
      (entryValues_italic_iff _).mpr hl
    have hblock : darkItalicBlock f (lightValuesAt L t) (darkValuesAt D t) =
        [f.darkClass "not-italic"] := by
      rw [darkItalicBlock, if_neg (by simp [hdv]), if_pos hlv]
    exact ⟨hblock, mem_classParts_of_mem_dvc (mem_dvc_italic
      (hblock ▸ List.mem_singleton.mpr rfl))⟩
  · intro hd hl
    have hdv : (darkValuesAt D t).italic = false := by
      rcases Bool.eq_false_or_eq_true (darkValuesAt D t).italic with h | h
      · exact absurd ((entryValues_italic_iff _).mp h) hd
      · exact h
    have hlv : (lightValuesAt L t).italic = false := by
      rcases Bool.eq_false_or_eq_true (lightValuesAt L t).italic with h | h
      · exact absurd ((entryValues_italic_iff _).mp h) hl
      · exact h
    exact ⟨hlv, hdv, by rw [darkItalicBlock, if_neg (by simp [hdv]),
      if_neg (by simp [hlv])]⟩
  · intro hc
    have hdv : (darkValuesAt D t).underline = true :=
      (entryValues_underline_iff _).mpr hc
    apply mem_classParts_of_mem_dvc
    apply mem_dvc_underline
    rw [darkUnderlineBlock, if_pos hdv]
    exact List.mem_singleton.mpr rfl
  · intro hd hl
    have hdv : (darkValuesAt D t).underline = false := by
      rcases Bool.eq_false_or_eq_true (darkValuesAt D t).underline with h | h
      · exact absurd ((entryValues_underline_iff _).mp h) hd
      · exact h
    have hlv : (lightValuesAt L t).underline = true :=
      (entryValues_underline_iff _).mpr hl
    have hblock :
        darkUnderlineBlock f (lightValuesAt L t) (darkValuesAt D t) =
          [f.darkClass "no-underline"] := by
      rw [darkUnderlineBlock, if_neg (by simp [hdv]), if_pos hlv]
    exact ⟨hblock, mem_classParts_of_mem_dvc (mem_dvc_underline
      (hblock ▸ List.mem_singleton.mpr rfl))⟩
  · intro hd hl
    have hdv : (darkValuesAt D t).underline = false := by
      rcases Bool.eq_false_or_eq_true (darkValuesAt D t).underline with h | h
      · exact absurd ((entryValues_underline_iff _).mp h) hd
      · exact h
    have hlv : (lightValuesAt L t).underline = false := by
      rcases Bool.eq_false_or_eq_true (lightValuesAt L t).underline with h | h
      · exact absurd ((entryValues_underline_iff _).mp h) hl
      · exact h
    exact ⟨hlv, hdv, by rw [darkUnderlineBlock, if_neg (by simp [hdv]),
      if_neg (by simp [hlv])]⟩

/-- C2 witness: for the concrete theme pair, the Keyword category gets the
dark-prefixed dark foreground class, and its bold field (set in light,
unset in dark) gets exactly the `dark:font-normal` reset class. -/
theorem darkVariant_per_field_witness :
    (subDarkEntry testDark TokenType.Keyword).colour = some 0xff7b72 ∧
    Formatter.darkClass { } ("text-[" ++ colourString 0xff7b72 ++ "]") ∈
      classParts { } testLight testDark TokenType.Keyword ∧
    darkBoldBlock { } (lightValuesAt testLight TokenType.Keyword)
      (darkValuesAt testDark TokenType.Keyword) =
      [Formatter.darkClass { } "font-normal"] := by
  refine ⟨by decide, ?_, ?_⟩
  · exact (darkVariant_per_field { } testLight testDark
      TokenType.Keyword).1.1 0xff7b72 (by decide)
  · exact ((darkVariant_per_field { } testLight testDark
      TokenType.Keyword).2.2.1.2.1 (by decide) (by decide)).1

theorem entryValues_bold_false (e : StyleEntry) (h : e.bold = Trilean.pass) :
    (entryValuesFrom e).bold = false := by
  simp [entryValuesFrom, h]

theorem entryValues_italic_false (e : StyleEntry)
    (h : e.italic = Trilean.pass) : (entryValuesFrom e).italic = false := by
  simp [entryValuesFrom, h]

theorem entryValues_underline_false (e : StyleEntry)
    (h : e.underline = Trilean.pass) :
    (entryValuesFrom e).underline = false := by
  simp [entryValuesFrom, h]

/-! ## C3 -/

/-- C3: before any class is derived, non-Background categories are
subtracted field-wise against the theme's Background entry (the Background
category itself is not subtracted): each field that exactly equals the
background's corresponding field becomes unset and derives no value; in
particular a non-Background category whose foreground colour equals its
theme's background-entry foreground emits no text class (the light text
block is empty). -/
theorem background_subtraction_field_wise (f : Formatter) (L D : Style)
    (t : TokenType) :
    (t ≠ TokenType.Background →
      subLightEntry L t = (L.get t).sub (L.get TokenType.Background) ∧
      subDarkEntry D t = (D.get t).sub (D.get TokenType.Background)) ∧
    (subLightEntry L TokenType.Background = L.get TokenType.Background ∧
      subDarkEntry D TokenType.Background = D.get TokenType.Background) ∧
    (t ≠ TokenType.Background →
      ((L.get t).colour = (L.get TokenType.Background).colour →
        (subLightEntry L t).colour = none ∧ (lightValuesAt L t).text = "") ∧
      ((L.get t).background = (L.get TokenType.Background).background →
        (subLightEntry L t).background = none ∧ (lightValuesAt L t).bg = "") ∧
      ((L.get t).bold = (L.get TokenType.Background).bold →
        (subLightEntry L t).bold = Trilean.pass ∧
        (lightValuesAt L t).bold = false) ∧
      ((L.get t).italic = (L.get TokenType.Background).italic →
        (subLightEntry L t).italic = Trilean.pass ∧
        (lightValuesAt L t).italic = false) ∧
      ((L.get t).underline = (L.get TokenType.Background).underline →
        (subLightEntry L t).underline = Trilean.pass ∧
        (lightValuesAt L t).underline = false)) ∧
    (t ≠ TokenType.Background →
      ((D.get t).colour = (D.get TokenType.Background).colour →
        (subDarkEntry D t).colour = none ∧ (darkValuesAt D t).text = "") ∧
      ((D.get t).background = (D.get TokenType.Background).background →
        (subDarkEntry D t).background = none ∧ (darkValuesAt D t).bg = "") ∧
      ((D.get t).bold = (D.get TokenType.Background).bold →
        (subDarkEntry D t).bold = Trilean.pass ∧
        (darkValuesAt D t).bold = false) ∧
      ((D.get t).italic = (D.get TokenType.Background).italic →
        (subDarkEntry D t).italic = Trilean.pass ∧
        (darkValuesAt D t).italic = false) ∧
      ((D.get t).underline = (D.get TokenType.Background).underline →
        (subDarkEntry D t).underline = Trilean.pass ∧
        (darkValuesAt D t).underline = false)) ∧
    (t ≠ TokenType.Background →
      (L.get t).colour = (L.get TokenType.Background).colour →
      (if (lightValuesAt L t).text ≠ "" then
        [prefixClass f.pfx (lightValuesAt L t).text] else []) = []) := by
  refine ⟨?_, ?_, ?_, ?_, ?_⟩
  · intro hne
    constructor
    · rw [subLightEntry, if_pos hne]
    · rw [subDarkEntry, if_pos hne]
  · constructor
    · rw [subLightEntry, if_neg (by simp)]
    · rw [subDarkEntry, if_neg (by simp)]
  · intro hne
    refine ⟨?_, ?_, ?_, ?_, ?_⟩
    · intro heq
      have hcol : (subLightEntry L t).colour = none := by
        rw [subLightEntry, if_pos hne, StyleEntry.sub]
        simp [heq]
      exact ⟨hcol, (entryValues_text_empty_iff _).mpr hcol⟩
    · intro heq
      have hcol : (subLightEntry L t).background = none := by
        rw [subLightEntry, if_pos hne, StyleEntry.sub]
        simp [heq]
      exact ⟨hcol, (entryValues_bg_empty_iff _).mpr hcol⟩
    · intro heq
      have hb : (subLightEntry L t).bold = Trilean.pass := by
        rw [subLightEntry, if_pos hne, StyleEntry.sub]
        simp [heq]
      exact ⟨hb, entryValues_bold_false _ hb⟩
    · intro heq
      have hb : (subLightEntry L t).italic = Trilean.pass := by
        rw [subLightEntry, if_pos hne, StyleEntry.sub]
        simp [heq]
      exact ⟨hb, entryValues_italic_false _ hb⟩
    · intro heq
      have hb : (subLightEntry L t).underline = Trilean.pass := by
        rw [subLightEntry, if_pos hne, StyleEntry.sub]
        simp [heq]
      exact ⟨hb, entryValues_underline_false _ hb⟩
  · intro hne
    refine ⟨?_, ?_, ?_, ?_, ?_⟩
    · intro heq
      have hcol : (subDarkEntry D t).colour = none := by
        rw [subDarkEntry, if_pos hne, StyleEntry.sub]
        simp [heq]
      exact ⟨hcol, (entryValues_text_empty_iff _).mpr hcol⟩
    · intro heq
      have hcol : (subDarkEntry D t).background = none := by
        rw [subDarkEntry, if_pos hne, StyleEntry.sub]
        simp [heq]
      exact ⟨hcol, (entryValues_bg_empty_iff _).mpr hcol⟩
    · intro heq
      have hb : (subDarkEntry D t).bold = Trilean.pass := by
        rw [subDarkEntry, if_pos hne, StyleEntry.sub]
        simp [heq]
      exact ⟨hb, entryValues_bold_false _ hb⟩
    · intro heq
      have hb : (subDarkEntry D t).italic = Trilean.pass := by
        rw [subDarkEntry, if_pos hne, StyleEntry.sub]
        simp [heq]
      exact ⟨hb, entryValues_italic_false _ hb⟩
    · intro heq
      have hb : (subDarkEntry D t).underline = Trilean.pass := by
        rw [subDarkEntry, if_pos hne, StyleEntry.sub]
        simp [heq]
      exact ⟨hb, entryValues_underline_false _ hb⟩
  · intro hne heq
    have hcol : (subLightEntry L t).colour = none := by
      rw [subLightEntry, if_pos hne, StyleEntry.sub]
      simp [heq]
    rw [if_neg (by simp [(entryValues_text_empty_iff _).mpr hcol, lightValuesAt])]

/-- A theme whose Keyword foreground colour equals the Background entry's
foreground colour (and likewise for bold), used to witness the subtraction
claim. -/
def fgEqBgStyle : Style :=
  ⟨fun t => match t with
    | TokenType.Keyword => ⟨some 5, none, Trilean.yes, Trilean.pass, Trilean.pass⟩
    | TokenType.Background => ⟨some 5, some 7, Trilean.yes, Trilean.pass, Trilean.pass⟩
    | _ => emptyEntry⟩

/-- C3 witness: on a concrete theme whose Keyword foreground equals the
background entry's foreground, the subtracted Keyword entry has no colour
and the light class list emits no text class; the Background category is
not subtracted. -/
theorem background_subtraction_field_wise_witness :
    ((subLightEntry fgEqBgStyle TokenType.Keyword).colour = none ∧
      (lightValuesAt fgEqBgStyle TokenType.Keyword).text = "") ∧
    (if (lightValuesAt fgEqBgStyle TokenType.Keyword).text ≠ "" then
      [prefixClass ({ } : Formatter).pfx
        (lightValuesAt fgEqBgStyle TokenType.Keyword).text] else []) = [] ∧
    subLightEntry fgEqBgStyle TokenType.Background =
      fgEqBgStyle.get TokenType.Background := by
  refine ⟨?_, ?_, ?_⟩
  · exact ((background_subtraction_field_wise { } fgEqBgStyle fgEqBgStyle
      TokenType.Keyword).2.2.1 (by decide)).1 (by decide)
  · exact (background_subtraction_field_wise { } fgEqBgStyle fgEqBgStyle
      TokenType.Keyword).2.2.2.2 (by decide) (by decide)
  · exact (background_subtraction_field_wise { } fgEqBgStyle fgEqBgStyle
      TokenType.Keyword).2.1.1

/-! ## C6 lemmas -/

theorem prefixClass_inj (p : String) {a b : String}
    (h : prefixClass p a = prefixClass p b) : a = b := by
  unfold prefixClass at h
  by_cases hp : p = ""
  · rwa [if_pos hp, if_pos hp] at h
  · rw [if_neg hp, if_neg hp] at h
    exact string_append_left_cancel h

/-- A string containing no `#` differs from every rendered colour class. -/
theorem reset_ne_colour_class (r pre post : String) (c : Nat)
    (hr : ('#' : Char) ∉ r.data) : r ≠ pre ++ colourString c ++ post := by
  intro h
  apply hr
  rw [h, String.data_append, String.data_append, colourString_eq,
    String.data_append]
  have hh : ('#' : Char) ∈ "#".data := by decide
  exact List.mem_append_left _
    (List.mem_append_right _ (List.mem_append_left _ hh))

theorem entryValues_text_shape (e : StyleEntry)
    (h : (entryValuesFrom e).text ≠ "") :
    ∃ c, (entryValuesFrom e).text = "text-[" ++ colourString c ++ "]" := by
  cases hc : e.colour with
  | none => exact absurd ((entryValues_text_empty_iff e).mpr hc) h
  | some c => exact ⟨c, by simp [entryValuesFrom, hc]⟩

theorem entryValues_bg_shape (e : StyleEntry)
    (h : (entryValuesFrom e).bg ≠ "") :
    ∃ c, (entryValuesFrom e).bg = "bg-[" ++ colourString c ++ "]" := by
  cases hc : e.background with
  | none => exact absurd ((entryValues_bg_empty_iff e).mpr hc) h
  | some c => exact ⟨c, by simp [entryValuesFrom, hc]⟩

/-- Every element of the light class list is the prefixed class of one of
the five field values. -/
theorem mem_classes_cases {v : entryValues} {p s : String}
    (h : s ∈ v.classes p) :
    (v.text ≠ "" ∧ s = prefixClass p v.text) ∨
    (v.bg ≠ "" ∧ s = prefixClass p v.bg) ∨
    (v.bold = true ∧ s = prefixClass p "font-bold") ∨
    (v.italic = true ∧ s = prefixClass p "italic") ∨
    (v.underline = true ∧ s = prefixClass p "underline") := by
  unfold entryValues.classes at h
  rcases List.mem_append.mp h with h | h
  rotate_left
  · by_cases hc : v.underline = true
    · rw [if_pos hc] at h
      exact Or.inr (Or.inr (Or.inr (Or.inr ⟨hc, List.mem_singleton.mp h⟩)))
    · rw [if_neg hc] at h
      cases h
  rcases List.mem_append.mp h with h | h
  rotate_left
  · by_cases hc : v.italic = true
    · rw [if_pos hc] at h
      exact Or.inr (Or.inr (Or.inr (Or.inl ⟨hc, List.mem_singleton.mp h⟩)))
    · rw [if_neg hc] at h
      cases h
  rcases List.mem_append.mp h with h | h
  rotate_left
  · by_cases hc : v.bold = true
    · rw [if_pos hc] at h
      exact Or.inr (Or.inr (Or.inl ⟨hc, List.mem_singleton.mp h⟩))
    · rw [if_neg hc] at h
      cases h
  rcases List.mem_append.mp h with h | h
  rotate_left
  · by_cases hc : v.bg ≠ ""
    · rw [if_pos hc] at h
      exact Or.inr (Or.inl ⟨hc, List.mem_singleton.mp h⟩)
    · rw [if_neg hc] at h
      cases h
  · by_cases hc : v.text ≠ ""
    · rw [if_pos hc] at h
      exact Or.inl ⟨hc, List.mem_singleton.mp h⟩
    · rw [if_neg hc] at h
      cases h

/-- In single-theme mode (dark entry values equal to the light ones) the
dark-variant classes are exactly the dark-prefixed duplicates of the light
classes. -/
theorem darkVariant_self (f : Formatter) (v : entryValues) :
    f.darkVariantClasses v v =
      (v.classes f.pfx).map (fun s => "dark:" ++ s) := by
  rw [Formatter.darkVariantClasses, entryValues.classes, darkTextBlock,
    darkBgBlock, darkBoldBlock, darkItalicBlock, darkUnderlineBlock]
  simp only [List.map_append]
  by_cases h1 : v.text = "" <;> by_cases h2 : v.bg = "" <;>
    by_cases h3 : v.bold = true <;> by_cases h4 : v.italic = true <;>
    by_cases h5 : v.underline = true <;>
    simp [h1, h2, h3, h4, h5, Formatter.darkClass]

/-- In single-theme mode no dark reset class is emitted for entry values
derived from an actual style entry. -/
theorem darkVariant_self_no_reset (f : Formatter) (e : StyleEntry)
    (r : String)
    (hr : r ∈ ["text-[inherit]", "bg-transparent", "font-normal",
      "not-italic", "no-underline"]) :
    f.darkClass r ∉
      f.darkVariantClasses (entryValuesFrom e) (entryValuesFrom e) := by
  intro hmem
  rw [darkVariant_self] at hmem
  obtain ⟨s, hs, heq⟩ := List.mem_map.mp hmem
  have hs_eq : prefixClass f.pfx r = s :=
    (string_append_left_cancel (heq : "dark:" ++ s =
      "dark:" ++ prefixClass f.pfx r)).symm
  have hcases := mem_classes_cases hs
  have hr5 : r = "text-[inherit]" ∨ r = "bg-transparent" ∨
      r = "font-normal" ∨ r = "not-italic" ∨ r = "no-underline" := by
    simpa using hr
  rcases hcases with ⟨hne, rfl⟩ | ⟨hne, rfl⟩ | ⟨-, rfl⟩ | ⟨-, rfl⟩ | ⟨-, rfl⟩
  · obtain ⟨c, hshape⟩ := entryValues_text_shape e hne
    have hre : r = (entryValuesFrom e).text := prefixClass_inj f.pfx hs_eq
    rw [hshape] at hre
    rcases hr5 with rfl | rfl | rfl | rfl | rfl <;>
      exact reset_ne_colour_class _ "text-[" "]" c (by decide) hre
  · obtain ⟨c, hshape⟩ := entryValues_bg_shape e hne
    have hre : r = (entryValuesFrom e).bg := prefixClass_inj f.pfx hs_eq
    rw [hshape] at hre
    rcases hr5 with rfl | rfl | rfl | rfl | rfl <;>
      exact reset_ne_colour_class _ "bg-[" "]" c (by decide) hre
  · have hre : r = "font-bold" := prefixClass_inj f.pfx hs_eq
    rcases hr5 with rfl | rfl | rfl | rfl | rfl <;> exact absurd hre (by decide)
  · have hre : r = "italic" := prefixClass_inj f.pfx hs_eq
    rcases hr5 with rfl | rfl | rfl | rfl | rfl <;> exact absurd hre (by decide)
  · have hre : r = "underline" := prefixClass_inj f.pfx hs_eq
    rcases hr5 with rfl | rfl | rfl | rfl | rfl <;> exact absurd hre (by decide)

/-! ## C6 -/

/-- C6: when no dark theme is configured, `get(light, nil)` behaves exactly
as `get(light, light)` at both the cache and the class-mapping level; with
the dark theme equal to the light theme, every category's dark-variant part
consists exactly of the dark-prefixed duplicates of its light classes, and
no reset class (`dark:text-[inherit]`, `dark:bg-transparent`,
`dark:font-normal`, `dark:not-italic`, `dark:no-underline`) is ever
emitted. -/
theorem nil_dark_equals_light (f : Formatter) (L : Style) :
    (∀ (α : Type) (compute : Nat → Nat → α) (st : List (CacheEntry α))
      (l : Nat), cacheGet compute st l none = cacheGet compute st l (some l)) ∧
    f.classes L none = f.classes L (some L) ∧
    (∀ t, dvcAt f L L t =
      ((lightValuesAt L t).classes f.pfx).map (fun s => "dark:" ++ s)) ∧
    (∀ t r, r ∈ ["text-[inherit]", "bg-transparent", "font-normal",
      "not-italic", "no-underline"] → f.darkClass r ∉ dvcAt f L L t) := by
  refine ⟨fun α compute st l => rfl, rfl, fun t => darkVariant_self f _,
    fun t r hr => ?_⟩
  exact darkVariant_self_no_reset f (subDarkEntry L t) r hr

/-- C6 witness: concretely, for the single-theme Keyword category the reset
class `dark:text-[inherit]` is absent from the dark-variant part, while the
dark-prefixed duplicate of the light foreground class is present. -/
theorem nil_dark_equals_light_witness :
    ("text-[inherit]" ∈ (["text-[inherit]", "bg-transparent", "font-normal",
      "not-italic", "no-underline"] : List String)) ∧
    Formatter.darkClass { } "text-[inherit]" ∉
      dvcAt { } testLight testLight TokenType.Keyword ∧
    dvcAt { } testLight testLight TokenType.Keyword =
      ((lightValuesAt testLight TokenType.Keyword).classes "").map
        (fun s => "dark:" ++ s) := by
  refine ⟨by decide, ?_, ?_⟩
  · exact (nil_dark_equals_light { } testLight).2.2.2 TokenType.Keyword
      "text-[inherit]" (by decide)
  · exact (nil_dark_equals_light { } testLight).2.2.1 TokenType.Keyword

/-! ## C9 lemmas -/

theorem classes_eq_background (f : Formatter) (L : Style)
    (dOpt : Option Style) :
    f.classes L dOpt TokenType.Background =
      (if f.tabWidthClass = "" then
        classesFor f L (dOpt.getD L) TokenType.Background
      else joinClasses (classesFor f L (dOpt.getD L) TokenType.Background)
        (prefixClass f.pfx f.tabWidthClass)) := by
  simp [Formatter.classes]

theorem classes_eq_preWrapper (f : Formatter) (L : Style)
    (dOpt : Option Style) :
    f.classes L dOpt TokenType.PreWrapper =
      joinClasses (classesFor f L (dOpt.getD L) TokenType.PreWrapper)
        (f.classes L dOpt TokenType.Background) := by
  rw [classes_eq_background]
  simp [Formatter.classes]

theorem classes_eq_other (f : Formatter) (L : Style) (dOpt : Option Style)
    (t : TokenType) (h1 : t ≠ TokenType.Background)
    (h2 : t ≠ TokenType.PreWrapper) :
    f.classes L dOpt t = classesFor f L (dOpt.getD L) t := by
  simp [Formatter.classes, h1, h2]

/-- `joinClasses` with a non-empty right side appends it as the final
segment, preceded by nothing or by a space-terminated rest. -/
theorem joinClasses_suffix (a b : String) (hb : b ≠ "") :
    ∃ rest, joinClasses a b = rest ++ b ∧
      (rest = "" ∨ ∃ r0, rest = r0 ++ " ") := by
  by_cases ha : a = ""
  · exact ⟨"", by rw [joinClasses, if_pos ha, String.empty_append], Or.inl rfl⟩
  · refine ⟨a ++ " ", ?_, Or.inr ⟨a, rfl⟩⟩
    rw [joinClasses, if_neg ha, if_neg hb]

/-- `joinClasses` preserves a final segment of its right side. -/
theorem joinClasses_suffix_right (a b rest tail : String)
    (hb : b = rest ++ tail) (hrest : rest = "" ∨ ∃ r0, rest = r0 ++ " ")
    (hbne : b ≠ "") :
    ∃ rest2, joinClasses a b = rest2 ++ tail ∧
      (rest2 = "" ∨ ∃ r0, rest2 = r0 ++ " ") := by
  by_cases ha : a = ""
  · exact ⟨rest, by rw [joinClasses, if_pos ha]; exact hb, hrest⟩
  · refine ⟨a ++ " " ++ rest, ?_, ?_⟩
    · rw [joinClasses, if_neg ha, if_neg hbne, hb,
        String.append_assoc (a ++ " ") rest tail]
    · right
      rcases hrest with rfl | ⟨r0, rfl⟩
      · exact ⟨a, by rw [String.append_empty]⟩
      · exact ⟨a ++ " " ++ r0, by rw [String.append_assoc (a ++ " ") r0 " "]⟩

/-! ## C9 -/

/-- C9: a prefixed `[tab-size:n]` class is emitted iff a non-default tab
width is configured (neither 0, the unset value, nor the default 8): in
that case it is appended as the final class of the Background entry and
also ends the PreWrapper entry (into which the Background string is
folded); with a default tab width the mapping is exactly the tab-free
mapping (Background and PreWrapper are built from the plain per-category
class strings and every other category is untouched in both cases). -/
theorem tab_size_class_iff (f : Formatter) (L : Style) (dOpt : Option Style) :
    (f.tabWidth ≠ 0 ∧ f.tabWidth ≠ 8 →
      f.tabWidthClass = "[tab-size:" ++ toString f.tabWidth ++ "]" ∧
      f.classes L dOpt TokenType.Background =
        joinClasses (classesFor f L (dOpt.getD L) TokenType.Background)
          (prefixClass f.pfx ("[tab-size:" ++ toString f.tabWidth ++ "]")) ∧
      (∃ rest, f.classes L dOpt TokenType.Background =
        rest ++ prefixClass f.pfx ("[tab-size:" ++ toString f.tabWidth ++ "]") ∧
        (rest = "" ∨ ∃ r0, rest = r0 ++ " ")) ∧
      (∃ rest, f.classes L dOpt TokenType.PreWrapper =
        rest ++ prefixClass f.pfx ("[tab-size:" ++ toString f.tabWidth ++ "]") ∧
        (rest = "" ∨ ∃ r0, rest = r0 ++ " "))) ∧
    (f.tabWidth = 0 ∨ f.tabWidth = 8 →
      f.tabWidthClass = "" ∧
      f.classes L dOpt TokenType.Background =
        classesFor f L (dOpt.getD L) TokenType.Background ∧
      f.classes L dOpt TokenType.PreWrapper =
        joinClasses (classesFor f L (dOpt.getD L) TokenType.PreWrapper)
          (classesFor f L (dOpt.getD L) TokenType.Background)) ∧
    (∀ t, t ≠ TokenType.Background → t ≠ TokenType.PreWrapper →
      f.classes L dOpt t = classesFor f L (dOpt.getD L) t) := by
  refine ⟨?_, ?_, classes_eq_other f L dOpt⟩
  · intro hw
    have htab : f.tabWidthClass = "[tab-size:" ++ toString f.tabWidth ++ "]" := by
      rw [Formatter.tabWidthClass, if_pos hw]
    have htabne : prefixClass f.pfx ("[tab-size:" ++ toString f.tabWidth ++ "]")
        ≠ "" := by
      rw [prefixClass]
      by_cases hp : f.pfx = ""
      · rw [if_pos hp]
        exact string_append_ne_empty_right _ "]" (by decide)
      · rw [if_neg hp]
        exact string_append_ne_empty_right _ _
          (string_append_ne_empty_right _ "]" (by decide))
    have hbg : f.classes L dOpt TokenType.Background =
        joinClasses (classesFor f L (dOpt.getD L) TokenType.Background)
          (prefixClass f.pfx ("[tab-size:" ++ toString f.tabWidth ++ "]")) := by
      rw [classes_eq_background, htab,
        if_neg (string_append_ne_empty_right _ "]" (by decide))]
    refine ⟨htab, hbg, ?_, ?_⟩
    · rw [hbg]
      exact joinClasses_suffix _ _ htabne
    · rw [classes_eq_preWrapper, hbg]
      obtain ⟨rest, hsfx, hrest⟩ := joinClasses_suffix
        (classesFor f L (dOpt.getD L) TokenType.Background) _ htabne
      exact joinClasses_suffix_right _ _ rest _ hsfx hrest
        (hsfx ▸ string_append_ne_empty_right _ _ htabne)
  · intro hw
    have htab : f.tabWidthClass = "" := by
      rw [Formatter.tabWidthClass, if_neg (by tauto)]
    have hbg : f.classes L dOpt TokenType.Background =
        classesFor f L (dOpt.getD L) TokenType.Background := by
      rw [classes_eq_background, if_pos htab]
    exact ⟨htab, hbg, by rw [classes_eq_preWrapper, hbg]⟩

/-- C9 witness: with tab width 4 the Background entry's class string ends
in `[tab-size:4]`; with the default tab width 8 the tab class is empty and
the mapping is the tab-free one. -/
theorem tab_size_class_iff_witness :
    (∃ rest,
      Formatter.classes { tabWidth := 4 } testLight (some testDark)
        TokenType.Background =
        rest ++ prefixClass "" ("[tab-size:" ++ toString (4 : Nat) ++ "]") ∧
      (rest = "" ∨ ∃ r0, rest = r0 ++ " ")) ∧
    Formatter.tabWidthClass { tabWidth := 8 } = "" := by
  constructor
  · exact ((tab_size_class_iff { tabWidth := 4 } testLight
      (some testDark)).1 (by decide)).2.2.1
  · exact ((tab_size_class_iff { tabWidth := 8 } testLight
      (some testDark)).2.1 (Or.inr rfl)).1

/-! ## C7 lemmas -/

/-- The containment test of `shouldHighlight`. -/
def rangeHas (line : Nat) (r : HRange) : Bool :=
  decide (r.1 ≤ line) && decide (line ≤ r.2)

/-- On a list sorted by start line, the skip-then-test loop answers exactly
"some range contains the line". -/
theorem shAux_fst (line : Nat) :
    ∀ (l : List HRange), l.Pairwise leStart → ∀ (b : Bool),
      (shAux line l b).1 = l.any (rangeHas line) := by
  intro l
  induction l with
  | nil => intro _ b; rfl
  | cons r rest ih =>
    intro hpw b
    obtain ⟨hr, hrest⟩ := List.pairwise_cons.mp hpw
    by_cases hskip : r.2 < line
    · rw [shAux, if_pos hskip, ih hrest true, List.any_cons]
      have : rangeHas line r = false := by
        simp [rangeHas]
        omega
      rw [this, Bool.false_or]
    · rw [shAux, if_neg hskip, List.any_cons]
      by_cases hin : r.1 ≤ line
      · have : rangeHas line r = true := by
          simp [rangeHas]
          omega
        rw [this, Bool.true_or]
        simp [rangeHas]
        omega
      · have h1 : rangeHas line r = false := by
          simp [rangeHas]
          omega
        have h2 : rest.any (rangeHas line) = false := by
          rw [List.any_eq_false]
          intro x hx
          have := hr x hx
          simp [rangeHas, leStart] at this ⊢
          omega
        rw [h1, h2, Bool.false_or]
        simp [rangeHas]
        omega

theorem shAux_snd_true (line : Nat) :
    ∀ (l : List HRange), (shAux line l true).2 = true := by
  intro l
  induction l with
  | nil => rfl
  | cons r rest ih =>
    by_cases hskip : r.2 < line
    · rw [shAux, if_pos hskip]
      exact ih
    · rw [shAux, if_neg hskip]

/-- The cursor-moved flag is set exactly when the first unskipped range ends
below the current line. -/
theorem shAux_snd (line : Nat) (l : List HRange) :
    (shAux line l false).2 =
      (match l with
       | [] => false
       | r :: _ => decide (r.2 < line)) := by
  cases l with
  | nil => rfl
  | cons r rest =>
    by_cases hskip : r.2 < line
    · rw [shAux, if_pos hskip, shAux_snd_true]
      simp [hskip]
    · rw [shAux, if_neg hskip]
      simp [hskip]

/-- Ranges entirely below the current line do not affect the containment
answer. -/
theorem any_drop_eq_of_dead_prefix (rs : List HRange) (hi line : Nat)
    (hpre : ∀ r ∈ rs.take hi, r.2 < line) :
    (rs.drop hi).any (rangeHas line) = rs.any (rangeHas line) := by
  conv_rhs => rw [← List.take_append_drop hi rs]
  rw [List.any_append]
  have hfalse : (rs.take hi).any (rangeHas line) = false := by
    rw [List.any_eq_false]
    intro r hr
    have := hpre r hr
    simp [rangeHas]
    omega
  rw [hfalse, Bool.false_or]

/-- Correctness of the renderer's highlight loop over a sorted range list:
every line's flag answers global containment, even though the cursor only
moves forward one range at a time. -/
theorem hlGo_correct (rs : List HRange) (hsort : rs.Pairwise leStart) :
    ∀ (n line hi : Nat), (∀ r ∈ rs.take hi, r.2 < line) →
      ∀ i, i < n → (hlGo rs n line hi)[i]? =
        some (rs.any (rangeHas (line + i))) := by
  intro n
  induction n with
  | zero => intro line hi _ i hin; cases hin
  | succ m ih =>
    intro line hi hpre i hin
    rw [hlGo]
    cases i with
    | zero =>
      rw [List.getElem?_cons_zero, Nat.add_zero]
      have hsub : (rs.drop hi).Pairwise leStart :=
        hsort.sublist (List.drop_sublist hi rs)
      rw [shAux_fst line (rs.drop hi) hsub false,
        any_drop_eq_of_dead_prefix rs hi line hpre]
    | succ j =>
      rw [List.getElem?_cons_succ]
      have hpre2 : ∀ r ∈ rs.take (hi +
          if (shAux line (rs.drop hi) false).2 then 1 else 0),
          r.2 < line + 1 := by
        by_cases hmoved : (shAux line (rs.drop hi) false).2 = true
        · rw [if_pos hmoved]
          rw [shAux_snd] at hmoved
          intro r hr
          rw [List.take_add rs hi 1] at hr
          rcases List.mem_append.mp hr with hr1 | hr2
          · have := hpre r hr1
            omega
          · cases hdrop : rs.drop hi with
            | nil => rw [hdrop] at hr2; cases hr2
            | cons r0 rest0 =>
              rw [hdrop] at hr2 hmoved
              simp only [List.take_succ_cons, List.take_zero] at hr2
              have : r = r0 := List.mem_singleton.mp hr2
              subst this
              simp at hmoved
              omega
        · rw [if_neg hmoved]
          intro r hr
          have := hpre r hr
          omega
      have := ih (line + 1)
        (hi + if (shAux line (rs.drop hi) false).2 then 1 else 0) hpre2 j
        (Nat.lt_of_succ_lt_succ hin)
      rw [show line + 1 + j = line + (j + 1) from by omega] at this
      exact this

theorem sortRanges_sorted (rs : List HRange) :
    (sortRanges rs).Pairwise leStart :=
  List.sorted_insertionSort leStart rs

theorem sortRanges_perm (rs : List HRange) : (sortRanges rs).Perm rs :=
  List.perm_insertionSort leStart rs

/-! ## C7 -/

/-- C7: after `HighlightLines` sorts the configured ranges, the renderer's
line loop (visiting lines in increasing order with a monotonic cursor that
never rescans) marks the i-th rendered line highlighted exactly when its
line number `baseLineNumber + i` lies in some configured inclusive
`[start, end]` range. -/
theorem highlight_iff_in_some_range (rs : List HRange) (f0 : Formatter)
    (n i : Nat) (hin : i < n) :
    ((HighlightLines rs f0).highlightFlags n)[i]? = some true ↔
      ∃ r ∈ rs, r.1 ≤ f0.baseLineNumber + i ∧ f0.baseLineNumber + i ≤ r.2 := by
  have hform := hlGo_correct (sortRanges rs) (sortRanges_sorted rs) n
    f0.baseLineNumber 0 (by simp) i hin
  rw [Formatter.highlightFlags]
  show (hlGo (sortRanges rs) n f0.baseLineNumber 0)[i]? = some true ↔ _
  rw [hform]
  rw [Option.some_inj, List.any_eq_true]
  constructor
  · rintro ⟨r, hr, hhas⟩
    refine ⟨r, (sortRanges_perm rs).mem_iff.mp hr, ?_⟩
    simpa [rangeHas] using hhas
  · rintro ⟨r, hr, h1, h2⟩
    exact ⟨r, (sortRanges_perm rs).mem_iff.mpr hr, by simp [rangeHas, h1, h2]⟩

/-- C7 witness: for the configured range [3,5] with base line number 1,
rendered line index 2 (line 3) is highlighted and index 5 (line 6) is
not. -/
theorem highlight_iff_in_some_range_witness :
    ((HighlightLines [(3, 5)] { }).highlightFlags 7)[2]? = some true ∧
    ((HighlightLines [(3, 5)] { }).highlightFlags 7)[5]? ≠ some true := by
  constructor
  · exact (highlight_iff_in_some_range [(3, 5)] { } 7 2 (by decide)).mpr
      ⟨(3, 5), by decide, by decide, by decide⟩
  · intro h
    obtain ⟨r, hr, h1, h2⟩ :=
      (highlight_iff_in_some_range [(3, 5)] { } 7 5 (by decide)).mp h
    have : r = (3, 5) := List.mem_singleton.mp hr
    subst this
    exact absurd h2 (by decide)

/-! ## C10 -/

/-- C10: `HighlightLines` stores the caller's slice itself and sorts it in
place: afterwards the caller's array holds a permutation of its old
contents ordered ascending by start line, every other slice is untouched,
and the formatter's retained reference is the caller's slice, so the
formatter reads the mutated array during later renders (the formatter's
range list is that same sorted array). -/
theorem highlightLines_sorts_in_place (h : RangeHeap) (ref : Nat)
    (f0 : Formatter) :
    (highlightLinesHeap h ref).2 = ref ∧
    (highlightLinesHeap h ref).1 ref = sortRanges (h ref) ∧
    ((highlightLinesHeap h ref).1 ref).Perm (h ref) ∧
    ((highlightLinesHeap h ref).1 ref).Pairwise leStart ∧
    (∀ r, r ≠ ref → (highlightLinesHeap h ref).1 r = h r) ∧
    (highlightLinesHeap h ref).1 ((highlightLinesHeap h ref).2) =
      (HighlightLines (h ref) f0).highlightRanges := by
  refine ⟨rfl, ?_, ?_, ?_, ?_, ?_⟩
  · show (if ref = ref then sortRanges (h ref) else h ref) = sortRanges (h ref)
    rw [if_pos rfl]
  · show (if ref = ref then sortRanges (h ref) else h ref).Perm (h ref)
    rw [if_pos rfl]
    exact sortRanges_perm (h ref)
  · show (if ref = ref then sortRanges (h ref) else h ref).Pairwise leStart
    rw [if_pos rfl]
    exact sortRanges_sorted (h ref)
  · intro r hr
    show (if r = ref then sortRanges (h r) else h r) = h r
    rw [if_neg hr]
  · show (if ref = ref then sortRanges (h ref) else h ref) =
      (HighlightLines (h ref) f0).highlightRanges
    rw [if_pos rfl]
    rfl

/-- A concrete heap of two range slices (slice 0 unsorted). -/
def testHeap : RangeHeap :=
  fun j => if j = 0 then [(5, 6), (1, 2)] else [(9, 9)]

/-- C10 witness: configuring from slice 0 reorders the caller's array into
sorted order and leaves slice 1 untouched. -/
theorem highlightLines_sorts_in_place_witness :
    (highlightLinesHeap testHeap 0).1 0 = [(1, 2), (5, 6)] ∧
    (highlightLinesHeap testHeap 0).1 1 = testHeap 1 := by
  constructor
  · rw [(highlightLines_sorts_in_place testHeap 0 { }).2.1]
    decide
  · exact (highlightLines_sorts_in_place testHeap 0 { }).2.2.2.2.1 1 (by decide)

/-! ## C8 -/

set_option maxRecDepth 100000 in
/-- C8: a token's literal text enters the emitted markup only through
`escapeString` (the HTML escaper), whatever its category: the emitted
fragment is exactly the escaped text, wrapped in a styled span iff the
category's class attribute is non-empty; `<a&b>` escapes to
`&lt;a&amp;b&gt;`, and a complete concrete render shows the escaped text
in the output with the raw text absent. -/
theorem token_text_html_escaped (f : Formatter) (classes : TokenType → String)
    (tok : Token) :
    (tokenHTML f classes tok =
      (if f.classAttr classes tok.tokenType [] = "" then "" else
        "<span" ++ f.classAttr classes tok.tokenType [] ++ ">") ++
      escapeString tok.text ++
      (if f.classAttr classes tok.tokenType [] = "" then "" else "</span>")) ∧
    escapeString "<a&b>" = "&lt;a&amp;b&gt;" ∧
    outputString { } testLight [⟨TokenType.Keyword, "<a&b>"⟩] =
      "<pre class=\"text-[#111111] bg-[#ffffff] dark:text-[#111111] dark:bg-[#ffffff]\"><code><span class=\"flex\"><span><span class=\"text-[#d73a49] font-bold dark:text-[#d73a49] dark:font-bold\">" ++
      escapeString "<a&b>" ++ "</span></span></span></code></pre>" := by
  refine ⟨?_, by decide, by decide⟩
  by_cases hattr : f.classAttr classes tok.tokenType [] = ""
  · simp [tokenHTML, hattr, String.empty_append, String.append_empty]
  · simp [tokenHTML, hattr]
